import Mathlib

/-!
# Verification of the codex-code-reviewer pipeline

Shallow embedding of the review-orchestration pipeline of the
`codex-code-reviewer` repository: the fingerprinting and baseline filter
(`src/utils/fingerprint.ts`), the severity quality gate (`checkQualityGate` in
`src/diff-review.ts`), the diff chunker (`chunkDiffByFile` in
`src/utils/diff-minimizer.ts`), the SARIF emitter (`parseLineRange` /
`convertToSARIF` in `src/formatters/sarif.ts`), the session cache lookup
(`getThreadId` in `src/utils/thread-cache.ts`) and the structured response
extractor (`stripCodeFences` / the parse-and-repair phase of `runWithSchema`
in `src/utils/codex-runner.ts`).

Strings are JavaScript strings; we work over `List Char` internally so that
every definition is executable and kernel-reducible.  Machine 32-bit words
(inside SHA-256) are `Nat` reduced modulo `2^32`.
-/

namespace CodexReview

/-! ## JavaScript string primitives

`isJsWs` models the character class `\s` of JavaScript regular expressions
and the characters removed by `String.prototype.trim` (ASCII whitespace plus
NBSP and BOM; the exotic Unicode space code points are omitted, which is
faithful on all inputs the pipeline handles). -/

def isJsWs (c : Char) : Bool :=
  c = ' ' || c = '\t' || c = '\n' || c = '\r' || c = '\x0b' || c = '\x0c' ||
  c = '\u00A0' || c = '\uFEFF'

/-- `String.prototype.trim` on a character list: drop whitespace from both ends. -/
def jsTrimL (l : List Char) : List Char :=
  ((l.dropWhile isJsWs).reverse.dropWhile isJsWs).reverse

def jsTrim (s : String) : String := String.mk (jsTrimL s.data)

/-- `String.prototype.toLowerCase`, restricted to ASCII case mapping. -/
def jsToLower (s : String) : String := String.mk (s.data.map Char.toLower)

/-- One step of `replace(/\s+/g, " ")`: a whitespace character followed by
another whitespace character is dropped; the last character of each
whitespace run becomes a single space. -/
def collapseWsL : List Char → List Char
  | [] => []
  | [c] => [if isJsWs c then ' ' else c]
  | c₁ :: c₂ :: cs =>
    if isJsWs c₁ && isJsWs c₂ then collapseWsL (c₂ :: cs)
    else (if isJsWs c₁ then ' ' else c₁) :: collapseWsL (c₂ :: cs)

/-! ## Fingerprinting (`src/utils/fingerprint.ts`) -/

/-- The `Fingerprintable` interface: all fields except `file` are optional. -/
structure Fingerprintable where
  file : String
  line_range : Option String := none
  type : Option String := none
  severity : Option String := none
  issue : Option String := none
  title : Option String := none
  description : Option String := none
deriving DecidableEq

/-- JavaScript `a || b || ""` for two optional strings: the first operand
that is present and non-empty, else the empty string. -/
def jsOrStr (a b : Option String) : String :=
  if a.getD "" = "" then b.getD "" else a.getD ""

/-- `normalizeLineRange`: absent or empty range becomes the placeholder
`"0"`; otherwise every whitespace character is removed (`replace(/\s/g,"")`). -/
def normalizeLineRange (range : Option String) : String :=
  if range.getD "" = "" then "0"
  else String.mk ((range.getD "").data.filter (fun c => !isJsWs c))

/-- `normalizeIssueText`: absent or empty text becomes `""`; otherwise the
text is lower-cased, trimmed, and runs of whitespace collapse to one space. -/
def normalizeIssueText (text : Option String) : String :=
  if text.getD "" = "" then ""
  else String.mk (collapseWsL (jsTrimL ((text.getD "").data.map Char.toLower)))

/-- The canonical pre-image string hashed by `computeFingerprint`:
the four canonical parts joined with `"|"`. -/
def fingerprintData (i : Fingerprintable) : String :=
  i.file ++ "|" ++ normalizeLineRange i.line_range ++ "|" ++
    jsOrStr i.type i.title ++ "|" ++
    normalizeIssueText (some (jsOrStr i.issue i.description))

/-! ### SHA-256 over `Nat` (models Node's `crypto.createHash("sha256")`) -/

/-- Truncate to a 32-bit word. -/
def w32 (n : Nat) : Nat := n % 4294967296

/-- 32-bit right rotation. -/
def rotr (n x : Nat) : Nat := w32 ((x >>> n) ||| (x <<< (32 - n)))

/-- 32-bit bitwise complement (for `x < 2^32`). -/
def bnot32 (x : Nat) : Nat := 4294967295 - x

def shaCh (x y z : Nat) : Nat := Nat.xor (Nat.land x y) (Nat.land (bnot32 x) z)

def shaMaj (x y z : Nat) : Nat :=
  Nat.xor (Nat.xor (Nat.land x y) (Nat.land x z)) (Nat.land y z)

def shaS0 (x : Nat) : Nat := Nat.xor (Nat.xor (rotr 2 x) (rotr 13 x)) (rotr 22 x)
def shaS1 (x : Nat) : Nat := Nat.xor (Nat.xor (rotr 6 x) (rotr 11 x)) (rotr 25 x)
def shas0 (x : Nat) : Nat := Nat.xor (Nat.xor (rotr 7 x) (rotr 18 x)) (x >>> 3)
def shas1 (x : Nat) : Nat := Nat.xor (Nat.xor (rotr 17 x) (rotr 19 x)) (x >>> 10)

def shaK : List Nat :=
  [1116352408, 1899447441, 3049323471, 3921009573, 961987163,
   1508970993, 2453635748, 2870763221, 3624381080, 310598401,
   607225278, 1426881987, 1925078388, 2162078206, 2614888103,
   3248222580, 3835390401, 4022224774, 264347078, 604807628,
   770255983, 1249150122, 1555081692, 1996064986, 2554220882,
   2821834349, 2952996808, 3210313671, 3336571891, 3584528711,
   113926993, 338241895, 666307205, 773529912, 1294757372,
   1396182291, 1695183700, 1986661051, 2177026350, 2456956037,
   2730485921, 2820302411, 3259730800, 3345764771, 3516065817,
   3600352804, 4094571909, 275423344, 430227734, 506948616,
   659060556, 883997877, 958139571, 1322822218, 1537002063,
   1747873779, 1955562222, 2024104815, 2227730452, 2361852424,
   2428436474, 2756734187, 3204031479, 3329325298]

def shaH0 : List Nat :=
  [1779033703, 3144134277, 1013904242, 2773480762,
   1359893119, 2600822924, 528734635, 1541459225]

/-- UTF-8 encoding of one character (what Node's `Buffer.from(s, "utf8")` does). -/
def utf8EncodeChar (c : Char) : List Nat :=
  let n := c.toNat
  if n < 0x80 then [n]
  else if n < 0x800 then [0xc0 + n / 64, 0x80 + n % 64]
  else if n < 0x10000 then
    [0xe0 + n / 4096, 0x80 + (n / 64) % 64, 0x80 + n % 64]
  else
    [0xf0 + n / 262144, 0x80 + (n / 4096) % 64, 0x80 + (n / 64) % 64, 0x80 + n % 64]

def utf8Bytes (s : String) : List Nat := s.data.flatMap utf8EncodeChar

/-- SHA-256 message padding: append `0x80`, zero bytes to 56 mod 64, then the
bit length as a big-endian 64-bit integer. -/
def shaPad (msg : List Nat) : List Nat :=
  let l := msg.length
  let zeros := (64 + 55 - (l % 64)) % 64
  let bitLen := l * 8
  msg ++ 0x80 :: List.replicate zeros 0 ++
    (List.range 8).map (fun i => (bitLen >>> ((7 - i) * 8)) % 256)

/-- Split a byte list into 64-byte blocks (fuelled by the list length). -/
def blocks64Aux : Nat → List Nat → List (List Nat)
  | 0, _ => []
  | _, [] => []
  | fuel + 1, l => l.take 64 :: blocks64Aux fuel (l.drop 64)

def blocks64 (l : List Nat) : List (List Nat) := blocks64Aux l.length l

/-- Four big-endian bytes to one 32-bit word, over a 64-byte block. -/
def blockWords (block : List Nat) : List Nat :=
  (List.range 16).map (fun i =>
    (block.getD (4 * i) 0) * 16777216 + (block.getD (4 * i + 1) 0) * 65536 +
    (block.getD (4 * i + 2) 0) * 256 + block.getD (4 * i + 3) 0)

/-- Extend the 16 message words to the 64-word schedule. -/
def shaSchedule (ws : List Nat) : List Nat :=
  (List.range 48).foldl
    (fun w _ =>
      let k := w.length
      w ++ [w32 (shas1 (w.getD (k - 2) 0) + w.getD (k - 7) 0 +
                 shas0 (w.getD (k - 15) 0) + w.getD (k - 16) 0)])
    ws

/-- One round of the SHA-256 compression function; the state is the list
`[a,b,c,d,e,f,g,h]`. -/
def shaRound (st : List Nat) (kw : Nat × Nat) : List Nat :=
  let a := st.getD 0 0
  let b := st.getD 1 0
  let c := st.getD 2 0
  let d := st.getD 3 0
  let e := st.getD 4 0
  let f := st.getD 5 0
  let g := st.getD 6 0
  let h := st.getD 7 0
  let t1 := w32 (h + shaS1 e + shaCh e f g + kw.1 + kw.2)
  let t2 := w32 (shaS0 a + shaMaj a b c)
  [w32 (t1 + t2), a, b, c, w32 (d + t1), e, f, g]

/-- Process one 64-byte block. -/
def shaBlock (h : List Nat) (block : List Nat) : List Nat :=
  let w := shaSchedule (blockWords block)
  let st := (shaK.zip w).foldl shaRound h
  (h.zip st).map (fun p => w32 (p.1 + p.2))

/-- SHA-256 of a byte list, as eight 32-bit words. -/
def sha256Words (msg : List Nat) : List Nat :=
  (blocks64 (shaPad msg)).foldl shaBlock shaH0

def hexDigit (n : Nat) : Char :=
  if n < 10 then Char.ofNat (48 + n) else Char.ofNat (87 + n)

def wordHex (w : Nat) : List Char :=
  (List.range 8).map (fun i => hexDigit ((w >>> (28 - 4 * i)) % 16))

/-- `crypto.createHash("sha256").update(data).digest("hex")`. -/
def sha256hex (s : String) : String :=
  String.mk (((sha256Words (utf8Bytes s)).map wordHex).flatten)

/-- `computeFingerprint`: join the four canonical parts with `"|"`, hash with
SHA-256, and keep the first 16 hex characters (`substring(0, 16)`). -/
def computeFingerprint (issue : Fingerprintable) : String :=
  String.mk ((sha256hex (fingerprintData issue)).data.take 16)

/-- A `FingerprintedIssue`: a fingerprintable issue plus its digest. -/
structure FIssue extends Fingerprintable where
  fingerprint : String
deriving DecidableEq

/-- `filterNewIssues`: keep the issues whose fingerprint is not in the
baseline set (the baseline `Set<string>` is modelled as a list of strings,
membership via `contains`). -/
def filterNewIssues (issues : List FIssue) (baselineFingerprints : List String) :
    List FIssue :=
  issues.filter (fun issue => !baselineFingerprints.contains issue.fingerprint)

/-! ## Quality gate (`checkQualityGate` in `src/diff-review.ts`) -/

/-- The `failOn` threshold values of `DiffOptions`. -/
inductive FailOn where
  | none
  | minor
  | major
  | critical
  | blocker
deriving DecidableEq

def FailOn.toStr : FailOn → String
  | .none => "none"
  | .minor => "minor"
  | .major => "major"
  | .critical => "critical"
  | .blocker => "blocker"

/-- The issue shape produced by `DiffIssueSchema`. -/
structure DiffIssue where
  file : String
  line_range : Option String := none
  type : String
  severity : String
  issue : String
  why_problem : String
  fix : String
deriving DecidableEq

/-- The fields of `DiffOptions` that the pipeline logic reads. -/
structure DiffOptions where
  failOn : Option FailOn := Option.none
  baseline : Option String := Option.none
  updateBaseline : Bool := false
  newIssuesOnly : Bool := false
  maxIssues : Option Nat := Option.none

def severityOrder : List String := ["blocker", "critical", "major", "minor"]

/-- JavaScript `Array.prototype.indexOf`: the index of the first occurrence,
or `-1` when absent. -/
def jsIndexOf : List String → String → Int
  | [], _ => -1
  | a :: t, x =>
    if a = x then 0
    else if jsIndexOf t x = -1 then -1 else jsIndexOf t x + 1

/-- `checkQualityGate(issues, shouldMerge, options)`: fail (`true`) when some
issue's lower-cased severity occurs in `severityOrder` at an index at or
before the index of the configured threshold. -/
def checkQualityGate (issues : List DiffIssue) (shouldMerge : Bool)
    (options : DiffOptions) : Bool :=
  match options.failOn with
  | Option.none => false
  | Option.some f =>
    if f.toStr = "none" then false
    else
      let threshold := jsIndexOf severityOrder f.toStr
      issues.any (fun issue =>
        let issueSeverity := jsIndexOf severityOrder (jsToLower issue.severity)
        issueSeverity ≠ -1 && issueSeverity ≤ threshold)

/-- Claim-side severity rank, following the spec's fixed order
blocker > critical > major > minor (larger = more severe); unrecognized
severities get no rank. -/
def sevRank : String → Option Nat := fun s =>
  if s = "blocker" then Option.some 3
  else if s = "critical" then Option.some 2
  else if s = "major" then Option.some 1
  else if s = "minor" then Option.some 0
  else Option.none

/-- Claim-side rank of a threshold (meaningful for thresholds other than
`none`). -/
def FailOn.rank : FailOn → Nat
  | .none => 0
  | .minor => 0
  | .major => 1
  | .critical => 2
  | .blocker => 3

/-- The quality gate as the spec words it: `none` always passes; otherwise
fail iff some issue's case-insensitive severity is recognized and its rank is
at least the threshold's rank. -/
def specQualityGate (issues : List DiffIssue) (f : FailOn) : Bool :=
  match f with
  | .none => false
  | _ =>
    issues.any (fun issue =>
      match sevRank (jsToLower issue.severity) with
      | Option.some r => f.rank ≤ r
      | Option.none => false)

/-! ## Session cache lookup (`getThreadId` in `src/utils/thread-cache.ts`)

The on-disk JSON object `ThreadCache` is modelled as an association list;
timestamps are integers (milliseconds). -/

structure ThreadEntry where
  threadId : String
  lastUsed : Int
deriving DecidableEq

/-- JavaScript object property lookup `cache[cacheKey]`. -/
def cacheLookup (cache : List (String × ThreadEntry)) (key : String) :
    Option ThreadEntry :=
  (cache.find? (fun p => p.1 = key)).map Prod.snd

/-- `getThreadId`: look the key up; entries whose age strictly exceeds
24 hours are reported absent.  The function only reads the store, so the
returned store is the input store. -/
def getThreadId (cache : List (String × ThreadEntry)) (now : Int)
    (cacheKey : String) : Option String × List (String × ThreadEntry) :=
  match cacheLookup cache cacheKey with
  | Option.none => (Option.none, cache)
  | Option.some entry =>
    let age := now - entry.lastUsed
    if age > 24 * 60 * 60 * 1000 then (Option.none, cache)
    else (Option.some entry.threadId, cache)

/-! ## SARIF emission (`src/formatters/sarif.ts`) -/

/-- Digit-run to number (the effect of `parseInt` on a string of digits). -/
def digitsToNat (l : List Char) : Nat :=
  l.foldl (fun acc c => acc * 10 + (c.toNat - 48)) 0

/-- The leftmost match of `/(\d+)/`: the first maximal run of digits,
returned with the rest of the input after the run. -/
def firstNumber : List Char → Option (Nat × List Char)
  | [] => Option.none
  | c :: cs =>
    if c.isDigit then
      Option.some (digitsToNat ((c :: cs).takeWhile Char.isDigit),
        (c :: cs).dropWhile Char.isDigit)
    else firstNumber cs

/-- `parseLineRange`: the leftmost match of `/(\d+)(?:-(\d+))?/` gives
`start` (and `end` when a `-`-separated second digit run immediately
follows); no range or no digits give `start = 1`. -/
def parseLineRange (lineRange : Option String) : Nat × Option Nat :=
  if lineRange.getD "" = "" then (1, Option.none)
  else
    match firstNumber (lineRange.getD "").data with
    | Option.none => (1, Option.none)
    | Option.some (n, rest) =>
      match rest with
      | '-' :: r2 =>
        if (r2.takeWhile Char.isDigit) = [] then (n, Option.none)
        else (n, Option.some (digitsToNat (r2.takeWhile Char.isDigit)))
      | _ => (n, Option.none)

def jsToUpper (s : String) : String := String.mk (s.data.map Char.toUpper)

/-- `severityToLevel`: blocker/critical → error, major/high → warning,
everything else → note. -/
def severityToLevel (severity : String) : String :=
  let s := jsToLower severity
  if s = "blocker" || s = "critical" then "error"
  else if s = "major" || s = "high" then "warning"
  else "note"

/-- A SARIF rule (the nested `{text: …}` wrappers are flattened to the
carried strings). -/
structure SarifRule where
  id : String
  shortDescription : String
  fullDescription : String
  help : String
  tags : List String
deriving DecidableEq

/-- The `region` of a SARIF result: `startLine`, and `endLine` only when
present (the source spreads `...(end && { endLine: end })`, so an `end` of
`0` is also omitted). -/
structure SarifRegion where
  startLine : Nat
  endLine : Option Nat := Option.none
deriving DecidableEq

structure SarifResult where
  ruleId : String
  level : String
  message : String
  uri : String
  region : SarifRegion
deriving DecidableEq

/-- JavaScript `Map.prototype.has` on an insertion-ordered association list. -/
def jsMapHas {α : Type} (m : List (String × α)) (k : String) : Bool :=
  m.any (fun p => p.1 = k)

/-- JavaScript `Map.prototype.set`: update in place when the key exists,
else append. -/
def jsMapSet {α : Type} (m : List (String × α)) (k : String) (v : α) :
    List (String × α) :=
  if jsMapHas m k then m.map (fun p => if p.1 = k then (k, v) else p)
  else m ++ [(k, v)]

/-- The flattened SARIF output (`runs` always has exactly one entry in the
source, so the run and driver are inlined). -/
structure SarifOutput where
  version : String
  schemaUri : String
  driverName : String
  driverVersion : String
  informationUri : String
  rules : List SarifRule
  results : List SarifResult

/-- The rule id `CODEX.` + upper-cased type with `-` replaced by `_`. -/
def sarifRuleId (type : String) : String :=
  "CODEX." ++ String.mk ((jsToUpper type).data.map (fun c => if c = '-' then '_' else c))

/-- The per-issue SARIF result of the `convertToSARIF` loop body. -/
def sarifResultOf (issue : DiffIssue) : SarifResult :=
  let se := parseLineRange issue.line_range
  { ruleId := sarifRuleId issue.type
    level := severityToLevel issue.severity
    message := issue.issue
    uri := issue.file
    region :=
      { startLine := se.1
        endLine :=
          match se.2 with
          | Option.some e => if e ≠ 0 then Option.some e else Option.none
          | Option.none => Option.none } }

/-- The rule seeded by the first occurrence of an issue type. -/
def sarifRuleOf (issue : DiffIssue) : SarifRule :=
  { id := sarifRuleId issue.type
    shortDescription := String.mk (issue.type.data.map (fun c => if c = '-' then ' ' else c))
    fullDescription := issue.why_problem
    help := issue.fix
    tags := [issue.type, issue.severity] }

/-- One iteration of the `convertToSARIF` loop over issues. -/
def sarifStep (acc : List (String × SarifRule) × List SarifResult)
    (issue : DiffIssue) : List (String × SarifRule) × List SarifResult :=
  let ruleId := sarifRuleId issue.type
  let rules :=
    if jsMapHas acc.1 ruleId then acc.1
    else jsMapSet acc.1 ruleId (sarifRuleOf issue)
  (rules, acc.2 ++ [sarifResultOf issue])

/-- `convertToSARIF(issues, toolVersion)`. -/
def convertToSARIF (issues : List DiffIssue) (toolVersion : String := "1.0.0") :
    SarifOutput :=
  let acc := issues.foldl sarifStep ([], [])
  { version := "2.1.0"
    schemaUri := "https://json.schemastore.org/sarif-2.1.0.json"
    driverName := "Codex Code Reviewer"
    driverVersion := toolVersion
    informationUri := "https://github.com/haasonsaas/codex-code-reviewer"
    rules := acc.1.map Prod.snd
    results := acc.2 }

/-- Claim-side: a line range literally of the form `N` or `N-M`
(digit runs only). -/
def isNatStr (l : List Char) : Bool := !l.isEmpty && l.all Char.isDigit

/-- Split a character list on a separator character (JavaScript
`String.prototype.split` with a one-character separator). -/
def splitOnCharL (sep : Char) : List Char → List (List Char)
  | [] => [[]]
  | c :: cs =>
    match splitOnCharL sep cs with
    | [] => [[c]]
    | h :: t => if c = sep then [] :: h :: t else (c :: h) :: t

/-- Claim-side: the range is well-formed, i.e. of the form `N` or `N-M`. -/
def rangeWellFormed (s : String) : Bool :=
  match splitOnCharL '-' s.data with
  | [a] => isNatStr a
  | [a, b] => isNatStr a && isNatStr b
  | _ => false

/-- Claim-side region mapping, as amended: no range or a range without
digits anchors at line 1; otherwise `startLine` is the first digit run, and
`endLine` is a nonzero digit run immediately following a `-`. -/
def specRegion (lineRange : Option String) : SarifRegion :=
  match lineRange with
  | Option.none => { startLine := 1 }
  | Option.some s =>
    if s = "" then { startLine := 1 }
    else
      match firstNumber s.data with
      | Option.none => { startLine := 1 }
      | Option.some (n, rest) =>
        match rest with
        | '-' :: r2 =>
          let ds := r2.takeWhile Char.isDigit
          if ds = [] ∨ digitsToNat ds = 0 then { startLine := n }
          else { startLine := n, endLine := Option.some (digitsToNat ds) }
        | _ => { startLine := n }

/-! ## Diff chunking (`chunkDiffByFile` in `src/utils/diff-minimizer.ts`) -/

/-- `line.startsWith("diff --git")`. -/
def isHeaderLine (l : String) : Bool := "diff --git".data.isPrefixOf l.data

/-- Split at the first occurrence of `pat` (nonempty): returns the part
before and the part after the occurrence. -/
def splitOnFirst (pat : List Char) : List Char → Option (List Char × List Char)
  | [] => Option.none
  | c :: cs =>
    if pat.isPrefixOf (c :: cs) then Option.some ([], (c :: cs).drop pat.length)
    else
      match splitOnFirst pat cs with
      | Option.some (a, b) => Option.some (c :: a, b)
      | Option.none => Option.none

/-- The leftmost match of `/diff --git a\/(.*?) b\/(.*)/` in a line:
find `diff --git a/`, then lazily the first following ` b/`; on failure the
engine resumes one character later. -/
def matchDiffGit : List Char → Option (List Char × List Char)
  | [] => Option.none
  | c :: cs =>
    if "diff --git a/".data.isPrefixOf (c :: cs) then
      match splitOnFirst " b/".data ((c :: cs).drop 13) with
      | Option.some (g1, g2) => Option.some (g1, g2)
      | Option.none => matchDiffGit cs
    else matchDiffGit cs

/-- The file key extracted from a header line (match group 2), when the
header matches the pattern. -/
def findDiffGitKey (l : String) : Option String :=
  (matchDiffGit l.data).map (fun p => String.mk p.2)

/-- `Array.prototype.join("\n")` on a list of lines. -/
def joinSepL (sep : Char) : List (List Char) → List Char
  | [] => []
  | [x] => x
  | x :: y :: t => x ++ sep :: joinSepL sep (y :: t)

def joinNl (ls : List String) : String := String.mk (joinSepL '\n' (ls.map String.data))

/-- The scan of `chunkDiffByFile` over the split lines, carrying
`currentFile`, `currentChunk` and the insertion-ordered chunk map. -/
def chunkLoop : List String → Option String → List String →
    List (String × String) → List (String × String)
  | [], currentFile, currentChunk, fileChunks =>
    match currentFile with
    | Option.some f =>
      if currentChunk.length > 0 then jsMapSet fileChunks f (joinNl currentChunk)
      else fileChunks
    | Option.none => fileChunks
  | line :: rest, currentFile, currentChunk, fileChunks =>
    if isHeaderLine line then
      let flushed :=
        match currentFile with
        | Option.some f =>
          if currentChunk.length > 0 then jsMapSet fileChunks f (joinNl currentChunk)
          else fileChunks
        | Option.none => fileChunks
      chunkLoop rest (findDiffGitKey line) [line] flushed
    else
      match currentFile with
      | Option.some f => chunkLoop rest (Option.some f) (currentChunk ++ [line]) fileChunks
      | Option.none => chunkLoop rest Option.none currentChunk fileChunks

/-- `chunkDiffByFile(diff)`: split on newlines and scan. -/
def chunkDiffByFile (diff : String) : List (String × String) :=
  chunkLoop ((splitOnCharL '\n' diff.data).map String.mk) Option.none [] []

/-- The lines of a diff. -/
def diffLines (diff : String) : List String :=
  (splitOnCharL '\n' diff.data).map String.mk

/-- Claim-side: the diff text with the lines preceding the first
`diff --git` header removed. -/
def dropPreamble (diff : String) : String :=
  joinNl ((diffLines diff).dropWhile (fun l => !isHeaderLine l))

/-- The keys announced by the header lines of a diff (in order), counting
only headers that match the `a/… b/…` pattern. -/
def headerKeys (lines : List String) : List String :=
  lines.filterMap (fun l => if isHeaderLine l then findDiffGitKey l else Option.none)

/-- The claim-side grouping of lines into per-file chunks: each group starts
at a header line.  `collect ls acc` extends the open group `acc`. -/
def collectChunks : List String → List String → List (List String)
  | [], acc => [acc]
  | l :: ls, acc =>
    if isHeaderLine l then acc :: collectChunks ls [l]
    else collectChunks ls (acc ++ [l])

/-! ## Code fences and JSON extraction (`src/utils/codex-runner.ts`) -/

/-- `replace(/^```json\s*/i, "")`. -/
def stripLeadingJsonFence (l : List Char) : List Char :=
  if (l.take 7).map Char.toLower = "```json".data then (l.drop 7).dropWhile isJsWs
  else l

/-- `replace(/^```\s*/i, "")`. -/
def stripLeadingFence (l : List Char) : List Char :=
  if l.take 3 = "```".data then (l.drop 3).dropWhile isJsWs else l

/-- `replace(/```\s*$/i, "")`: remove the leftmost occurrence of three
backticks followed by nothing but whitespace. -/
def stripTrailingFence : List Char → List Char
  | [] => []
  | c :: cs =>
    if c = '`' && "``".data.isPrefixOf cs && (cs.drop 2).all isJsWs then []
    else c :: stripTrailingFence cs

/-- `stripCodeFences`: the three regex replacements followed by `trim()`. -/
def stripCodeFences (text : String) : String :=
  String.mk (jsTrimL (stripTrailingFence (stripLeadingFence
    (stripLeadingJsonFence text.data))))

/-! ### A JSON model

`JSON.parse` and `JSON.stringify` are platform builtins, not code of this
repository.  Modelled from the spec: JSON values with integer numerals
(fractional numbers are orthogonal to every claim), the standard serializer
(no insignificant whitespace, the usual two-character escapes plus `\u00xx`
for other control characters), and a fuelled parser for the JSON grammar. -/

inductive JVal where
  | null
  | bool (b : Bool)
  | num (n : Int)
  | str (s : String)
  | arr (elems : List JVal)
  | obj (fields : List (String × JVal))

/-- JSON escaping of one character (`JSON.stringify` on strings). -/
def escapeChar (c : Char) : List Char :=
  if c = '"' then ['\\', '"']
  else if c = '\\' then ['\\', '\\']
  else if c = '\x08' then ['\\', 'b']
  else if c = '\t' then ['\\', 't']
  else if c = '\n' then ['\\', 'n']
  else if c = '\x0c' then ['\\', 'f']
  else if c = '\r' then ['\\', 'r']
  else if c.toNat < 32 then
    ['\\', 'u', '0', '0', hexDigit (c.toNat / 16), hexDigit (c.toNat % 16)]
  else [c]

def serStr (s : String) : List Char :=
  '"' :: (s.data.flatMap escapeChar ++ ['"'])

/-- Decimal digits of a natural number (fuelled so that it reduces in the
kernel; the fuel `n + 1` always suffices). -/
def natDigitsAux : Nat → Nat → List Char
  | 0, _ => []
  | fuel + 1, n =>
    if n < 10 then [hexDigit n]
    else natDigitsAux fuel (n / 10) ++ [hexDigit (n % 10)]

def natDigits (n : Nat) : List Char := natDigitsAux (n + 1) n

def intDigits (n : Int) : List Char :=
  if n < 0 then '-' :: natDigits n.natAbs else natDigits n.natAbs

mutual

/-- `JSON.stringify` (no indentation). -/
def serJ : JVal → List Char
  | .null => "null".data
  | .bool true => "true".data
  | .bool false => "false".data
  | .num n => intDigits n
  | .str s => serStr s
  | .arr l => '[' :: (serArr l ++ [']'])
  | .obj l => '{' :: (serObj l ++ ['}'])

def serArr : List JVal → List Char
  | [] => []
  | [v] => serJ v
  | v :: w :: t => serJ v ++ ',' :: serArr (w :: t)

def serObj : List (String × JVal) → List Char
  | [] => []
  | [(k, v)] => serStr k ++ ':' :: serJ v
  | (k, v) :: p :: t => serStr k ++ ':' :: serJ v ++ ',' :: serObj (p :: t)

end

/-- JSON insignificant whitespace. -/
def isJsonWs (c : Char) : Bool :=
  c = ' ' || c = '\t' || c = '\n' || c = '\r'

def fromHexDigit (c : Char) : Option Nat :=
  if c.isDigit then Option.some (c.toNat - 48)
  else if 'a' ≤ c && c ≤ 'f' then Option.some (c.toNat - 87)
  else if 'A' ≤ c && c ≤ 'F' then Option.some (c.toNat - 55)
  else Option.none

/-- Parse a JSON string body (after the opening quote): the decoded
characters and the rest of the input after the closing quote. -/
def pStrBody : List Char → Option (List Char × List Char)
  | [] => Option.none
  | '"' :: r => Option.some ([], r)
  | '\\' :: r =>
    match r with
    | [] => Option.none
    | e :: r2 =>
      if e = '"' || e = '\\' || e = '/' then
        (pStrBody r2).map (fun p => (e :: p.1, p.2))
      else if e = 'b' then (pStrBody r2).map (fun p => ('\x08' :: p.1, p.2))
      else if e = 'f' then (pStrBody r2).map (fun p => ('\x0c' :: p.1, p.2))
      else if e = 'n' then (pStrBody r2).map (fun p => ('\n' :: p.1, p.2))
      else if e = 'r' then (pStrBody r2).map (fun p => ('\r' :: p.1, p.2))
      else if e = 't' then (pStrBody r2).map (fun p => ('\t' :: p.1, p.2))
      else if e = 'u' then
        match r2 with
        | h1 :: h2 :: h3 :: h4 :: r3 =>
          match fromHexDigit h1, fromHexDigit h2, fromHexDigit h3, fromHexDigit h4 with
          | Option.some a, Option.some b, Option.some c, Option.some d =>
            (pStrBody r3).map (fun p =>
              (Char.ofNat (((a * 16 + b) * 16 + c) * 16 + d) :: p.1, p.2))
          | _, _, _, _ => Option.none
        | _ => Option.none
      else Option.none
  | c :: r => (pStrBody r).map (fun p => (c :: p.1, p.2))

/-- Parse a digit run (`parseInt`-style, at least one digit). -/
def pNat (s : List Char) : Option (Nat × List Char) :=
  let ds := s.takeWhile Char.isDigit
  if ds.isEmpty then Option.none
  else Option.some (digitsToNat ds, s.dropWhile Char.isDigit)

mutual

/-- Fuelled parser for a JSON value; leading whitespace is skipped. -/
def pVal : Nat → List Char → Option (JVal × List Char)
  | 0, _ => Option.none
  | fuel + 1, s =>
    match s.dropWhile isJsonWs with
    | [] => Option.none
    | 'n' :: r =>
      if "ull".data.isPrefixOf r then Option.some (.null, r.drop 3) else Option.none
    | 't' :: r =>
      if "rue".data.isPrefixOf r then Option.some (.bool true, r.drop 3) else Option.none
    | 'f' :: r =>
      if "alse".data.isPrefixOf r then Option.some (.bool false, r.drop 4) else Option.none
    | '"' :: r => (pStrBody r).map (fun p => (.str (String.mk p.1), p.2))
    | '[' :: r =>
      match r.dropWhile isJsonWs with
      | ']' :: r2 => Option.some (.arr [], r2)
      | r' =>
        match pElems fuel r' with
        | Option.some (l, rest) => Option.some (.arr l, rest)
        | Option.none => Option.none
    | '{' :: r =>
      match r.dropWhile isJsonWs with
      | '}' :: r2 => Option.some (.obj [], r2)
      | r' =>
        match pFields fuel r' with
        | Option.some (l, rest) => Option.some (.obj l, rest)
        | Option.none => Option.none
    | '-' :: r =>
      match pNat r with
      | Option.some (n, rest) => Option.some (.num (-(n : Int)), rest)
      | Option.none => Option.none
    | c :: r =>
      if c.isDigit then
        match pNat (c :: r) with
        | Option.some (n, rest) => Option.some (.num (n : Int), rest)
        | Option.none => Option.none
      else Option.none

/-- Parse the elements of a nonempty array (positioned at the first
element); consumes the closing `]`. -/
def pElems : Nat → List Char → Option (List JVal × List Char)
  | 0, _ => Option.none
  | fuel + 1, s =>
    match pVal fuel s with
    | Option.none => Option.none
    | Option.some (v, rest) =>
      match rest.dropWhile isJsonWs with
      | ',' :: r2 =>
        match pElems fuel r2 with
        | Option.some (l, rest2) => Option.some (v :: l, rest2)
        | Option.none => Option.none
      | ']' :: r2 => Option.some ([v], r2)
      | _ => Option.none

/-- Parse the fields of a nonempty object (positioned at the first key);
consumes the closing `}`. -/
def pFields : Nat → List Char → Option (List (String × JVal) × List Char)
  | 0, _ => Option.none
  | fuel + 1, s =>
    match s.dropWhile isJsonWs with
    | '"' :: r =>
      match pStrBody r with
      | Option.none => Option.none
      | Option.some (k, rest) =>
        match rest.dropWhile isJsonWs with
        | ':' :: r2 =>
          match pVal fuel r2 with
          | Option.none => Option.none
          | Option.some (v, rest2) =>
            match rest2.dropWhile isJsonWs with
            | ',' :: r3 =>
              match pFields fuel r3 with
              | Option.some (l, rest3) =>
                Option.some ((String.mk k, v) :: l, rest3)
              | Option.none => Option.none
            | '}' :: r3 => Option.some ([(String.mk k, v)], r3)
            | _ => Option.none
        | _ => Option.none
    | _ => Option.none

end

/-- `JSON.parse`: parse one value and demand that only whitespace remains. -/
def parseJson (s : String) : Option JVal :=
  match pVal (s.data.length + 1) s.data with
  | Option.some (v, rest) =>
    if (rest.dropWhile isJsonWs).isEmpty then Option.some v else Option.none
  | Option.none => Option.none

/-! ## The parse-and-repair phase of `runWithSchema` -/

/-- The repair instruction sent verbatim on the first parse failure. -/
def repairPromptText : String :=
  "Return ONLY the valid JSON from your previous response. No markdown, no code fences, no explanations. Just the raw JSON object."

structure ParsePhaseResult where
  result : Except String JVal
  repairPrompts : List String

/-- The parse phase of `runWithSchema` (lines 80–107): clean the combined
response, parse; on failure send exactly one repair request (modelled by the
`repairResponse` the session answers with), clean and parse the answer; a
second failure is fatal with the cleaned first response preserved in the
error message.  `repairPrompts` records every prompt sent after the first
exchange. -/
def runParsePhase (finalResponse : String) (repairResponse : String) :
    ParsePhaseResult :=
  let cleanedResponse := stripCodeFences finalResponse
  match parseJson cleanedResponse with
  | Option.some d => ⟨Except.ok d, []⟩
  | Option.none =>
    let repairedResponse := stripCodeFences (jsTrim repairResponse)
    match parseJson repairedResponse with
    | Option.some d => ⟨Except.ok d, [repairPromptText]⟩
    | Option.none =>
      ⟨Except.error ("Failed to parse JSON even after repair. Response: " ++
        cleanedResponse), [repairPromptText]⟩

/-- A fenced agent message: a leading triple-backtick line carrying the
language tag (empty string for a bare fence) and a trailing triple-backtick
line. -/
def fenceWrap (tag : String) (s : String) : String :=
  "```" ++ tag ++ "\n" ++ s ++ "\n```"

/-- Does the input start with a decimal digit?  (Used to state that a
serialized number is not continued by the following text.) -/
def digitHead : List Char → Bool
  | [] => false
  | c :: _ => c.isDigit

mutual

/-- Fuel sufficient for `pVal` to parse the serialization of a value. -/
def jfuel : JVal → Nat
  | .null => 1
  | .bool _ => 1
  | .num _ => 1
  | .str _ => 1
  | .arr l => jfuelElems l + 1
  | .obj l => jfuelFields l + 1

def jfuelElems : List JVal → Nat
  | [] => 0
  | v :: t => max (jfuel v) (jfuelElems t) + 1

def jfuelFields : List (String × JVal) → Nat
  | [] => 0
  | (_, v) :: t => max (jfuel v) (jfuelFields t) + 1

end


end CodexReview

/-! # Theorems -/

namespace CodexReview

set_option maxRecDepth 40000

/-- C10: the quality-gate decision is independent of the agent's merge
recommendation: `checkQualityGate` never reads `shouldMerge`. -/
theorem checkQualityGate_shouldMerge_irrelevant
    (issues : List DiffIssue) (options : DiffOptions) :
    checkQualityGate issues true options = checkQualityGate issues false options :=
  rfl

/-- C3: `filterNewIssues` returns exactly the issues whose fingerprint is
not in the baseline, in input order (sublist), and is idempotent. -/
theorem filterNewIssues_spec (issues : List FIssue) (baseline : List String) :
    (∀ i, i ∈ filterNewIssues issues baseline ↔
        i ∈ issues ∧ i.fingerprint ∉ baseline) ∧
    (filterNewIssues issues baseline).Sublist issues ∧
    filterNewIssues (filterNewIssues issues baseline) baseline =
      filterNewIssues issues baseline := by
  refine ⟨fun i => ?_, List.filter_sublist _, ?_⟩
  · simp [filterNewIssues, List.mem_filter]
  · simp [filterNewIssues, List.filter_filter]

/-- C6 counterexample: at age exactly 24 hours (86400000 ms) the claim says
the lookup is absent (age ≥ 24h), but `getThreadId` still returns the cached
id because the code tests `age > 24h` strictly. -/
theorem getThreadId_claim_counterexample :
    (cacheLookup [("k", ⟨"t", 0⟩)] "k").isSome = true ∧
    (86400000 : Int) - 0 ≥ 24 * 60 * 60 * 1000 ∧
    (getThreadId [("k", ⟨"t", 0⟩)] 86400000 "k").1 = Option.some "t" := by
  refine ⟨rfl, by decide, rfl⟩

/-- C6 amended: `getThreadId` returns absent exactly when no entry exists or
the entry age strictly exceeds 24 hours; otherwise it returns the stored
thread id; and it never modifies the store. -/
theorem getThreadId_spec (cache : List (String × ThreadEntry)) (now : Int)
    (key : String) :
    ((getThreadId cache now key).1 = Option.none ↔
      cacheLookup cache key = Option.none ∨
        ∃ e, cacheLookup cache key = Option.some e ∧
          now - e.lastUsed > 24 * 60 * 60 * 1000) ∧
    (∀ e, cacheLookup cache key = Option.some e →
      now - e.lastUsed ≤ 24 * 60 * 60 * 1000 →
      (getThreadId cache now key).1 = Option.some e.threadId) ∧
    (getThreadId cache now key).2 = cache := by
  cases h : cacheLookup cache key with
  | none =>
    simp [getThreadId, h]
  | some e =>
    simp only [getThreadId, h]
    by_cases hage : now - e.lastUsed > 24 * 60 * 60 * 1000
    · rw [if_pos hage]
      refine ⟨⟨fun _ => Or.inr ⟨e, rfl, hage⟩, fun _ => rfl⟩, ?_, rfl⟩
      intro e' he' hle
      injection he' with he2
      subst he2
      omega
    · rw [if_neg hage]
      refine ⟨⟨fun hco => ?_, ?_⟩, ?_, rfl⟩
      · exact absurd hco (by simp)
      · rintro (hno | ⟨e', he', hgt⟩)
        · exact absurd hno (by simp)
        · injection he' with he2
          subst he2
          omega
      · intro e' he' _
        injection he' with he2
        subst he2
        rfl

/-- C6 amended, witness: a fresh entry is returned. -/
theorem getThreadId_spec_witness :
    (getThreadId [("k", ⟨"t", 50⟩)] 100 "k").1 = Option.some "t" :=
  (getThreadId_spec [("k", ⟨"t", 50⟩)] 100 "k").2.1 ⟨"t", 50⟩ rfl (by decide)

/-- C2 counterexample: two issues that satisfy every condition of the claim
— equal files, equal normalized line ranges, equal `type` fields (both
present, both `""`), and equal normalized descriptive texts — but different
fingerprints: the code treats an empty `type` as absent (JavaScript `||`)
and falls through to the differing titles. -/
theorem computeFingerprint_claim_counterexample :
    ({ file := "f", type := Option.some "", title := Option.some "A",
       description := Option.some "d" } : Fingerprintable).file =
      ({ file := "f", type := Option.some "", title := Option.some "B",
         description := Option.some "d" } : Fingerprintable).file ∧
    normalizeLineRange (Option.none : Option String) =
      normalizeLineRange (Option.none : Option String) ∧
    ({ file := "f", type := Option.some "", title := Option.some "A",
       description := Option.some "d" } : Fingerprintable).type =
      ({ file := "f", type := Option.some "", title := Option.some "B",
         description := Option.some "d" } : Fingerprintable).type ∧
    normalizeIssueText (Option.some "d") = normalizeIssueText (Option.some "d") ∧
    computeFingerprint
        ({ file := "f", type := Option.some "", title := Option.some "A",
           description := Option.some "d" } : Fingerprintable) ≠
      computeFingerprint
        ({ file := "f", type := Option.some "", title := Option.some "B",
           description := Option.some "d" } : Fingerprintable) := by
  refine ⟨rfl, rfl, rfl, rfl, by decide⟩

/-- C2 amended: when the file, the normalized line range, the type-or-title
value (JavaScript truthiness: `type || title || ""`), and the normalized
descriptive text (`issue || description || ""`) agree, the fingerprints
agree. -/
theorem computeFingerprint_normalized_congr (i₁ i₂ : Fingerprintable)
    (hfile : i₁.file = i₂.file)
    (hrange : normalizeLineRange i₁.line_range = normalizeLineRange i₂.line_range)
    (htype : jsOrStr i₁.type i₁.title = jsOrStr i₂.type i₂.title)
    (htext : normalizeIssueText (Option.some (jsOrStr i₁.issue i₁.description)) =
      normalizeIssueText (Option.some (jsOrStr i₂.issue i₂.description))) :
    computeFingerprint i₁ = computeFingerprint i₂ := by
  unfold computeFingerprint fingerprintData
  rw [hfile, hrange, htype, htext]

/-- C2 amended, witness: raw descriptions differing only in whitespace and
letter case fingerprint identically. -/
theorem computeFingerprint_normalized_congr_witness :
    normalizeIssueText (Option.some (jsOrStr Option.none (Option.some "Foo  Bar"))) =
      normalizeIssueText (Option.some (jsOrStr Option.none (Option.some "foo bar"))) ∧
    computeFingerprint { file := "a.ts", description := Option.some "Foo  Bar" } =
      computeFingerprint { file := "a.ts", description := Option.some "foo bar" } :=
  ⟨by decide,
   computeFingerprint_normalized_congr _ _ rfl rfl rfl (by decide)⟩

/-- C8 counterexample: changing the description (here only its letter case)
does not change the fingerprint, because the description is canonicalized
before hashing. -/
theorem computeFingerprint_sensitivity_counterexample :
    ({ file := "a.ts", description := Option.some "Foo" } : Fingerprintable).description ≠
      ({ file := "a.ts", description := Option.some "foo" } : Fingerprintable).description ∧
    computeFingerprint { file := "a.ts", description := Option.some "Foo" } =
      computeFingerprint { file := "a.ts", description := Option.some "foo" } := by
  constructor
  · decide
  · unfold computeFingerprint
    have h : fingerprintData { file := "a.ts", description := Option.some "Foo" } =
        fingerprintData { file := "a.ts", description := Option.some "foo" } := by
      decide
    rw [h]

/-- C8 amended: changing any single canonical part — the file, the
normalized line range, the type-or-title value, or the normalized
descriptive text — while the other three stay equal changes the hashed
pre-image `fingerprintData` (and hence the fingerprint up to SHA-256 prefix
collisions). -/
theorem fingerprintData_sensitive (i₁ i₂ : Fingerprintable) :
    (normalizeLineRange i₁.line_range = normalizeLineRange i₂.line_range →
      jsOrStr i₁.type i₁.title = jsOrStr i₂.type i₂.title →
      normalizeIssueText (Option.some (jsOrStr i₁.issue i₁.description)) =
        normalizeIssueText (Option.some (jsOrStr i₂.issue i₂.description)) →
      i₁.file ≠ i₂.file → fingerprintData i₁ ≠ fingerprintData i₂) ∧
    (i₁.file = i₂.file →
      jsOrStr i₁.type i₁.title = jsOrStr i₂.type i₂.title →
      normalizeIssueText (Option.some (jsOrStr i₁.issue i₁.description)) =
        normalizeIssueText (Option.some (jsOrStr i₂.issue i₂.description)) →
      normalizeLineRange i₁.line_range ≠ normalizeLineRange i₂.line_range →
      fingerprintData i₁ ≠ fingerprintData i₂) ∧
    (i₁.file = i₂.file →
      normalizeLineRange i₁.line_range = normalizeLineRange i₂.line_range →
      normalizeIssueText (Option.some (jsOrStr i₁.issue i₁.description)) =
        normalizeIssueText (Option.some (jsOrStr i₂.issue i₂.description)) →
      jsOrStr i₁.type i₁.title ≠ jsOrStr i₂.type i₂.title →
      fingerprintData i₁ ≠ fingerprintData i₂) ∧
    (i₁.file = i₂.file →
      normalizeLineRange i₁.line_range = normalizeLineRange i₂.line_range →
      jsOrStr i₁.type i₁.title = jsOrStr i₂.type i₂.title →
      normalizeIssueText (Option.some (jsOrStr i₁.issue i₁.description)) ≠
        normalizeIssueText (Option.some (jsOrStr i₂.issue i₂.description)) →
      fingerprintData i₁ ≠ fingerprintData i₂) := by
  have hdata : ∀ i : Fingerprintable, (fingerprintData i).data =
      i.file.data ++ '|' :: ((normalizeLineRange i.line_range).data ++ '|' ::
        ((jsOrStr i.type i.title).data ++ '|' ::
          (normalizeIssueText (Option.some (jsOrStr i.issue i.description))).data)) := by
    intro i
    simp [fingerprintData, String.data_append]
  refine ⟨?_, ?_, ?_, ?_⟩
  · intro h2 h3 h4 hne heq
    apply hne
    have hd := congrArg String.data heq
    rw [hdata, hdata, h2, h3, h4] at hd
    exact String.ext (List.append_cancel_right hd)
  · intro h1 h3 h4 hne heq
    apply hne
    have hd := congrArg String.data heq
    rw [hdata, hdata, h1, h3, h4] at hd
    have h5 := List.append_cancel_left hd
    simp only [List.cons.injEq, true_and] at h5
    exact String.ext (List.append_cancel_right h5)
  · intro h1 h2 h4 hne heq
    apply hne
    have hd := congrArg String.data heq
    rw [hdata, hdata, h1, h2, h4] at hd
    have h5 := List.append_cancel_left hd
    simp only [List.cons.injEq, true_and] at h5
    have h6 := List.append_cancel_left h5
    simp only [List.cons.injEq, true_and] at h6
    exact String.ext (List.append_cancel_right h6)
  · intro h1 h2 h3 hne heq
    apply hne
    have hd := congrArg String.data heq
    rw [hdata, hdata, h1, h2, h3] at hd
    have h5 := List.append_cancel_left hd
    simp only [List.cons.injEq, true_and] at h5
    have h6 := List.append_cancel_left h5
    simp only [List.cons.injEq, true_and] at h6
    have h7 := List.append_cancel_left h6
    simp only [List.cons.injEq, true_and] at h7
    exact String.ext h7

/-- C8 amended, witness: changing the file alone changes the pre-image. -/
theorem fingerprintData_sensitive_witness :
    ({ file := "a.ts" } : Fingerprintable).file ≠
      ({ file := "b.ts" } : Fingerprintable).file ∧
    fingerprintData { file := "a.ts" } ≠ fingerprintData { file := "b.ts" } :=
  ⟨by decide,
   (fingerprintData_sensitive { file := "a.ts" } { file := "b.ts" }).1
     rfl rfl rfl (by decide)⟩

/-- The per-issue test of the quality-gate loop agrees with the spec-side
rank test, for any threshold other than `none`. -/
theorem gateElem_eq (f : FailOn) (t : String) (hf : f ≠ FailOn.none) :
    (decide (jsIndexOf severityOrder t ≠ -1) &&
      decide (jsIndexOf severityOrder t ≤ jsIndexOf severityOrder f.toStr)) =
    (match sevRank t with
     | Option.some r => decide (f.rank ≤ r)
     | Option.none => false) := by
  by_cases h1 : t = "blocker"
  · subst h1
    cases f <;> first | exact absurd rfl hf | decide
  by_cases h2 : t = "critical"
  · subst h2
    cases f <;> first | exact absurd rfl hf | decide
  by_cases h3 : t = "major"
  · subst h3
    cases f <;> first | exact absurd rfl hf | decide
  by_cases h4 : t = "minor"
  · subst h4
    cases f <;> first | exact absurd rfl hf | decide
  · have hidx : jsIndexOf severityOrder t = -1 := by
      simp [jsIndexOf, severityOrder, Ne.symm h1, Ne.symm h2, Ne.symm h3, Ne.symm h4]
    simp [hidx, sevRank, h1, h2, h3, h4]

/-- C1: the quality gate returns `false` for an absent or `none` threshold,
and otherwise fails exactly when some issue's lower-cased severity is one of
blocker/critical/major/minor with rank at least the threshold's rank
(`specQualityGate`); unrecognized severities never trigger failure. -/
theorem checkQualityGate_spec (issues : List DiffIssue) (shouldMerge : Bool)
    (options : DiffOptions) :
    checkQualityGate issues shouldMerge options =
      match options.failOn with
      | Option.none => false
      | Option.some f => specQualityGate issues f := by
  cases hf : options.failOn with
  | none => simp [checkQualityGate, hf]
  | some f =>
    cases f <;>
      first
      | (simp [checkQualityGate, hf, FailOn.toStr, specQualityGate]; done)
      | (simp only [checkQualityGate, specQualityGate, hf]
         rw [if_neg (by decide)]
         refine congrArg issues.any (funext fun issue => ?_)
         first
         | exact gateElem_eq FailOn.minor (jsToLower issue.severity) (by decide)
         | exact gateElem_eq FailOn.major (jsToLower issue.severity) (by decide)
         | exact gateElem_eq FailOn.critical (jsToLower issue.severity) (by decide)
         | exact gateElem_eq FailOn.blocker (jsToLower issue.severity) (by decide))

/-- C5: when the cleaned first response fails to parse as JSON,
`runWithSchema` issues exactly one repair request (the literal instruction
to return only the raw JSON of the previous answer); a parsable repaired
response succeeds, and a second parse failure is fatal with the cleaned
first response preserved in the error message — no further repair requests
are made. -/
theorem runParsePhase_repair_spec (finalResponse repairResponse : String)
    (h1 : parseJson (stripCodeFences finalResponse) = Option.none) :
    (runParsePhase finalResponse repairResponse).repairPrompts = [repairPromptText] ∧
    (∀ d, parseJson (stripCodeFences (jsTrim repairResponse)) = Option.some d →
      (runParsePhase finalResponse repairResponse).result = Except.ok d) ∧
    (parseJson (stripCodeFences (jsTrim repairResponse)) = Option.none →
      (runParsePhase finalResponse repairResponse).result =
        Except.error ("Failed to parse JSON even after repair. Response: " ++
          stripCodeFences finalResponse)) := by
  cases h2 : parseJson (stripCodeFences (jsTrim repairResponse)) with
  | none => simp [runParsePhase, h1, h2]
  | some d => simp [runParsePhase, h1, h2]

/-- C5 witness: a response that is not JSON even after repair fails with the
cleaned response preserved. -/
theorem runParsePhase_repair_spec_witness :
    parseJson (stripCodeFences "not json") = Option.none ∧
    (runParsePhase "not json" "also not json").result =
      Except.error ("Failed to parse JSON even after repair. Response: " ++
        stripCodeFences "not json") :=
  ⟨rfl, (runParsePhase_repair_spec "not json" "also not json" rfl).2.2 rfl⟩

/-- C9 counterexample: the range `"45 to 52"` is not of the form `N` or
`N-M`, yet the emitted region starts at line 45, not at the claimed default
line 1: the regex `/(\d+)(?:-(\d+))?/` is unanchored and matches the first
digit run anywhere in the string. -/
theorem convertToSARIF_region_claim_counterexample :
    rangeWellFormed "45 to 52" = false ∧
    ((convertToSARIF
        [{ file := "a.ts", line_range := Option.some "45 to 52",
           type := "bug", severity := "major", issue := "x", why_problem := "y",
           fix := "z" }] "1.0.0").results.map (fun r => r.region)) =
      [{ startLine := 45 }] := by
  exact ⟨by decide, by decide⟩

/-- The region built by the `convertToSARIF` loop body agrees with the
spec-side region mapping. -/
theorem sarifResultOf_region (i : DiffIssue) :
    (sarifResultOf i).region = specRegion i.line_range := by
  unfold sarifResultOf specRegion parseLineRange
  cases hlr : i.line_range with
  | none => simp
  | some s =>
    simp only [Option.getD]
    by_cases hs : s = ""
    · simp [hs]
    · simp only [hs, if_false, if_neg]
      cases hfn : firstNumber s.data with
      | none => simp
      | some p =>
        obtain ⟨n, rest⟩ := p
        cases rest with
        | nil => simp
        | cons c r2 =>
          by_cases hc : c = '-'
          · subst hc
            by_cases hds : r2.takeWhile Char.isDigit = []
            · simp [hds]
            · by_cases hz : digitsToNat (r2.takeWhile Char.isDigit) = 0
              · simp [hds, hz]
              · simp [hds, hz]
          · split
            · simp_all
            · split
              · simp_all
              · simp_all

/-- The fold of `convertToSARIF` appends one result per issue, in order. -/
theorem sarifFold_results (l : List DiffIssue)
    (racc : List (String × SarifRule)) (resacc : List SarifResult) :
    (l.foldl sarifStep (racc, resacc)).2 = resacc ++ l.map sarifResultOf := by
  induction l generalizing racc resacc with
  | nil => simp
  | cons i t ih =>
    simp only [List.foldl_cons, List.map_cons]
    rw [show sarifStep (racc, resacc) i =
      ((sarifStep (racc, resacc) i).1, resacc ++ [sarifResultOf i]) from rfl]
    rw [ih]
    simp

/-- C9 amended: `convertToSARIF` emits exactly one result per input issue,
in order, and each result's region follows `specRegion`: an absent range or
a range with no digits anchors at startLine 1 (no endLine); otherwise
startLine is the first digit run N, with endLine M exactly when N is
immediately followed by `-M` for a digit run M with value ≥ 1. -/
theorem convertToSARIF_results_spec (issues : List DiffIssue) (tv : String) :
    (convertToSARIF issues tv).results.length = issues.length ∧
    (convertToSARIF issues tv).results.map (fun r => r.region) =
      issues.map (fun i => specRegion i.line_range) := by
  have hres : (convertToSARIF issues tv).results = issues.map sarifResultOf := by
    simp [convertToSARIF, sarifFold_results]
  rw [hres]
  constructor
  · simp
  · rw [List.map_map]
    exact List.map_congr_left (fun i _ => sarifResultOf_region i)

/-- C4 counterexample: two headers naming the same file make the map `set`
overwrite the first chunk, so concatenating the chunks drops the first
chunk's lines and does not reconstruct the diff. -/
theorem chunkDiffByFile_claim_counterexample :
    chunkDiffByFile "diff --git a/x b/x\nA\ndiff --git a/x b/x\nB" =
      [("x", "diff --git a/x b/x\nB")] ∧
    joinNl ((chunkDiffByFile
        "diff --git a/x b/x\nA\ndiff --git a/x b/x\nB").map Prod.snd) ≠
      dropPreamble "diff --git a/x b/x\nA\ndiff --git a/x b/x\nB" := by
  exact ⟨by decide, by decide⟩

/-- `Map.set` on an absent key appends. -/
theorem jsMapSet_not_mem {α : Type} (m : List (String × α)) (k : String) (v : α)
    (h : k ∉ m.map Prod.fst) : jsMapSet m k v = m ++ [(k, v)] := by
  have hc : jsMapHas m k = false := by
    rw [jsMapHas, List.any_eq_false]
    intro p hp
    simp only [decide_eq_true_eq]
    exact fun he => h (List.mem_map.mpr ⟨p, hp, he⟩)
  unfold jsMapSet
  rw [hc]
  simp

/-- A singleton join is the string itself. -/
theorem joinNl_singleton (s : String) : joinNl [s] = s := rfl

/-- Join of a cons with a nonempty tail. -/
theorem joinNl_cons (s : String) (rest : List String) (h : rest ≠ []) :
    joinNl (s :: rest) = s ++ "\n" ++ joinNl rest := by
  cases rest with
  | nil => exact absurd rfl h
  | cons y t =>
    cases s with
    | mk sd =>
      show String.mk (sd ++ '\n' :: joinSepL '\n' (y.data :: t.map String.data)) =
        String.mk ((sd ++ ['\n']) ++ joinSepL '\n' (y.data :: t.map String.data))
      exact congrArg String.mk (by simp)

/-- Join distributes over append of nonempty line lists, inserting one
separator. -/
theorem joinNl_append (A B : List String) (hA : A ≠ []) (hB : B ≠ []) :
    joinNl (A ++ B) = joinNl A ++ "\n" ++ joinNl B := by
  induction A with
  | nil => exact absurd rfl hA
  | cons a A' ih =>
    cases hA' : A' with
    | nil =>
      subst hA'
      show joinNl (a :: B) = joinNl [a] ++ "\n" ++ joinNl B
      rw [joinNl_cons a B hB, joinNl_singleton]
    | cons b t =>
      subst hA'
      show joinNl (a :: (b :: t ++ B)) = joinNl (a :: b :: t) ++ "\n" ++ joinNl B
      rw [joinNl_cons a (b :: t ++ B) (by simp), joinNl_cons a (b :: t) (by simp),
        ih (by simp)]
      simp [String.append_assoc]

theorem collectChunks_ne_nil (ls acc : List String) : collectChunks ls acc ≠ [] := by
  induction ls generalizing acc with
  | nil => simp [collectChunks]
  | cons l t ih =>
    unfold collectChunks
    by_cases hl : isHeaderLine l
    · simp [hl]
    · simp only [hl, Bool.false_eq_true, if_false, if_neg]
      exact ih (acc ++ [l])

/-- Joining the groups of `collectChunks` and then joining the group strings
reconstructs the join of all the lines. -/
theorem joinNl_collectChunks (ls : List String) :
    ∀ acc, acc ≠ [] →
      joinNl ((collectChunks ls acc).map joinNl) = joinNl (acc ++ ls) := by
  induction ls with
  | nil =>
    intro acc hacc
    simp [collectChunks, joinNl_singleton]
  | cons l ls' ih =>
    intro acc hacc
    by_cases hl : isHeaderLine l
    · have hcollect : collectChunks (l :: ls') acc = acc :: collectChunks ls' [l] := by
        simp only [collectChunks]
        rw [if_pos hl]
      rw [hcollect, List.map_cons,
        joinNl_cons _ _ (by simpa using collectChunks_ne_nil ls' [l]),
        ih [l] (by simp)]
      simp only [List.singleton_append]
      exact (joinNl_append acc (l :: ls') hacc (by simp)).symm
    · have hcollect : collectChunks (l :: ls') acc = collectChunks ls' (acc ++ [l]) := by
        simp only [collectChunks]
        rw [if_neg (by simp [hl])]
      rw [hcollect, ih (acc ++ [l]) (by simp)]
      simp

/-- The invariant of the `chunkDiffByFile` scan while inside a file chunk:
with all later headers parsable, all file keys distinct and the accumulated
map disjoint from them, the chunk values produced are the accumulated values
followed by the joined groups of the remaining lines. -/
theorem chunkLoop_values (ls : List String) :
    ∀ (f : String) (chunk : List String) (m : List (String × String)),
      chunk ≠ [] →
      (∀ l ∈ ls, isHeaderLine l = true → (findDiffGitKey l).isSome) →
      (f :: headerKeys ls).Nodup →
      (∀ k ∈ m.map Prod.fst, k ∉ f :: headerKeys ls) →
      (chunkLoop ls (Option.some f) chunk m).map Prod.snd =
        m.map Prod.snd ++ (collectChunks ls chunk).map joinNl := by
  induction ls with
  | nil =>
    intro f chunk m hchunk _ _ hdisj
    have hfm : f ∉ m.map Prod.fst := fun hin =>
      hdisj f hin (List.mem_cons_self f _)
    simp only [chunkLoop, collectChunks]
    rw [if_pos (by simpa [List.length_pos] using hchunk)]
    rw [jsMapSet_not_mem m f _ hfm]
    simp
  | cons l ls' ih =>
    intro f chunk m hchunk hparse hnodup hdisj
    by_cases hl : isHeaderLine l
    · obtain ⟨f', hf'⟩ : ∃ f', findDiffGitKey l = Option.some f' := by
        have := hparse l (List.mem_cons_self l ls') hl
        exact Option.isSome_iff_exists.mp this
      have hkeys : headerKeys (l :: ls') = f' :: headerKeys ls' := by
        simp [headerKeys, hl, hf']
      rw [hkeys] at hnodup hdisj
      have hfm : f ∉ m.map Prod.fst := fun hin =>
        hdisj f hin (List.mem_cons_self f _)
      have step : chunkLoop (l :: ls') (Option.some f) chunk m =
          chunkLoop ls' (Option.some f') [l]
            (m ++ [(f, joinNl chunk)]) := by
        simp only [chunkLoop, hl, if_pos]
        rw [if_pos (by simpa [List.length_pos] using hchunk),
          jsMapSet_not_mem m f _ hfm, hf']
      rw [step]
      rw [ih f' [l] (m ++ [(f, joinNl chunk)]) (by simp)
        (fun x hx h => hparse x (List.mem_cons_of_mem l hx) h)
        (by
          have := hnodup.sublist (List.sublist_cons_self f _)
          exact this)
        (by
          intro k hk
          rw [List.map_append] at hk
          rcases List.mem_append.mp hk with hk1 | hk2
          · intro hmem
            exact hdisj k hk1 (List.mem_cons_of_mem f hmem)
          · simp only [List.map_cons, List.map_nil, List.mem_singleton] at hk2
            subst hk2
            intro hmem
            exact (List.nodup_cons.mp hnodup).1 hmem)]
      have hcollect : collectChunks (l :: ls') chunk = chunk :: collectChunks ls' [l] := by
        simp only [collectChunks]
        rw [if_pos hl]
      rw [hcollect]
      simp
    · have hkeys : headerKeys (l :: ls') = headerKeys ls' := by
        simp [headerKeys, hl]
      rw [hkeys] at hnodup hdisj
      have step : chunkLoop (l :: ls') (Option.some f) chunk m =
          chunkLoop ls' (Option.some f) (chunk ++ [l]) m := by
        simp [chunkLoop, hl]
      rw [step]
      rw [ih f (chunk ++ [l]) m (by simp)
        (fun x hx h => hparse x (List.mem_cons_of_mem l hx) h) hnodup hdisj]
      have hcollect : collectChunks (l :: ls') chunk = collectChunks ls' (chunk ++ [l]) := by
        simp only [collectChunks]
        rw [if_neg (by simp [hl])]
      rw [hcollect]

/-- C4 amended: when every header line of the diff matches the
`diff --git a/… b/…` pattern and the announced file keys are pairwise
distinct, joining the chunks of `chunkDiffByFile` (in map insertion order,
which is header order) with newlines reconstructs the diff minus the
pre-header preamble; in particular no line after the first header is
dropped or duplicated. -/
theorem chunkDiffByFile_reconstructs (d : String)
    (hparse : ∀ l ∈ diffLines d, isHeaderLine l = true → (findDiffGitKey l).isSome)
    (hnodup : (headerKeys (diffLines d)).Nodup) :
    joinNl ((chunkDiffByFile d).map Prod.snd) = dropPreamble d := by
  have main : ∀ (L : List String),
      (∀ l ∈ L, isHeaderLine l = true → (findDiffGitKey l).isSome) →
      (headerKeys L).Nodup →
      joinNl ((chunkLoop L Option.none [] []).map Prod.snd) =
        joinNl (L.dropWhile (fun l => !isHeaderLine l)) := by
    intro L
    induction L with
    | nil => intro _ _; rfl
    | cons l ls ih =>
      intro hp hn
      by_cases hl : isHeaderLine l
      · obtain ⟨f', hf'⟩ :=
          Option.isSome_iff_exists.mp (hp l (List.mem_cons_self l ls) hl)
        have hkeys : headerKeys (l :: ls) = f' :: headerKeys ls := by
          simp [headerKeys, hl, hf']
        rw [hkeys] at hn
        have step : chunkLoop (l :: ls) Option.none [] [] =
            chunkLoop ls (Option.some f') [l] [] := by
          simp [chunkLoop, hl, hf']
        rw [step, chunkLoop_values ls f' [l] [] (by simp)
          (fun x hx h => hp x (List.mem_cons_of_mem l hx) h) hn (by simp)]
        rw [List.map_nil, List.nil_append,
          joinNl_collectChunks ls [l] (by simp)]
        rw [List.dropWhile_cons]
        simp [hl]
      · have hkeys : headerKeys (l :: ls) = headerKeys ls := by
          simp [headerKeys, hl]
        rw [hkeys] at hn
        have step : chunkLoop (l :: ls) Option.none [] [] =
            chunkLoop ls Option.none [] [] := by
          simp [chunkLoop, hl]
        rw [step, ih (fun x hx h => hp x (List.mem_cons_of_mem l hx) h) hn]
        rw [List.dropWhile_cons]
        simp [hl]
  exact main (diffLines d) hparse hnodup

/-- JSON whitespace is JavaScript whitespace. -/
theorem isJsonWs_eq_false {c : Char} (h : isJsWs c = false) : isJsonWs c = false := by
  by_contra hc
  rw [Bool.not_eq_false] at hc
  unfold isJsonWs at hc
  simp only [Bool.or_eq_true, decide_eq_true_eq] at hc
  rcases hc with ((h1 | h1) | h1) | h1 <;> (subst h1; simp [isJsWs] at h)

/-- Character facts about decimal digit characters. -/
theorem hexDigit_lt10_facts (m : Nat) (hm : m < 10) :
    (hexDigit m).isDigit = true ∧ isJsWs (hexDigit m) = false ∧
    (hexDigit m).toLower ≠ '`' ∧ hexDigit m ≠ ']' := by
  interval_cases m <;> exact ⟨by decide, by decide, by decide, by decide⟩

theorem fromHexDigit_hexDigit (m : Nat) (hm : m < 16) :
    fromHexDigit (hexDigit m) = Option.some m := by
  interval_cases m <;> decide

/-- Shape of the digit expansion: a digit-character list ending in the last
digit, nonempty, all characters decimal digits. -/
theorem natDigitsAux_spec (f : Nat) : ∀ n, n < f →
    ∃ (m : Nat) (init : List Char), m < 10 ∧
      natDigitsAux f n = init ++ [hexDigit m] ∧
      (∀ c ∈ natDigitsAux f n, ∃ k, k < 10 ∧ c = hexDigit k) ∧
      natDigitsAux f n ≠ [] := by
  induction f with
  | zero => intro n hn; omega
  | succ f ih =>
    intro n hn
    by_cases h10 : n < 10
    · refine ⟨n, [], h10, by simp [natDigitsAux, h10], ?_, by simp [natDigitsAux, h10]⟩
      intro c hc
      simp [natDigitsAux, h10] at hc
      exact ⟨n, h10, hc⟩
    · obtain ⟨m, init, hm, heq, hall, hne⟩ := ih (n / 10) (by omega)
      have hstep : natDigitsAux (f + 1) n =
          natDigitsAux f (n / 10) ++ [hexDigit (n % 10)] := by
        simp [natDigitsAux, h10]
      refine ⟨n % 10, natDigitsAux f (n / 10), by omega, by rw [hstep], ?_,
        by simp [hstep]⟩
      intro c hc
      rw [hstep] at hc
      rcases List.mem_append.mp hc with h | h
      · exact hall c h
      · simp only [List.mem_singleton] at h
        exact ⟨n % 10, by omega, h⟩

theorem digitsToNat_append_singleton (l : List Char) (d : Char) :
    digitsToNat (l ++ [d]) = 10 * digitsToNat l + (d.toNat - 48) := by
  unfold digitsToNat
  rw [List.foldl_append]
  simp [Nat.mul_comm]

theorem hexDigit_toNat (m : Nat) (hm : m < 10) : (hexDigit m).toNat - 48 = m := by
  interval_cases m <;> decide

theorem digitsToNat_natDigitsAux (f : Nat) : ∀ n, n < f →
    digitsToNat (natDigitsAux f n) = n := by
  induction f with
  | zero => intro n hn; omega
  | succ f ih =>
    intro n hn
    by_cases h10 : n < 10
    · have : natDigitsAux (f + 1) n = [hexDigit n] := by simp [natDigitsAux, h10]
      rw [this]
      unfold digitsToNat
      simp [hexDigit_toNat n h10]
    · have hstep : natDigitsAux (f + 1) n =
          natDigitsAux f (n / 10) ++ [hexDigit (n % 10)] := by
        simp [natDigitsAux, h10]
      rw [hstep, digitsToNat_append_singleton, ih (n / 10) (by omega),
        hexDigit_toNat (n % 10) (by omega)]
      omega

theorem digitsToNat_natDigits (n : Nat) : digitsToNat (natDigits n) = n :=
  digitsToNat_natDigitsAux (n + 1) n (by omega)

/-- `takeWhile`/`dropWhile` on an all-satisfying prefix followed by a
non-satisfying (or empty) remainder. -/
theorem takeWhile_dropWhile_append {p : Char → Bool} (l rest : List Char)
    (hall : ∀ c ∈ l, p c = true)
    (hrest : ∀ c r, rest = c :: r → p c = false) :
    (l ++ rest).takeWhile p = l ∧ (l ++ rest).dropWhile p = rest := by
  induction l with
  | nil =>
    simp only [List.nil_append]
    cases rest with
    | nil => simp
    | cons c r =>
      have := hrest c r rfl
      simp [List.takeWhile_cons, List.dropWhile_cons, this]
  | cons a l' ih =>
    have ha := hall a (List.mem_cons_self a l')
    have h2 := ih (fun c hc => hall c (List.mem_cons_of_mem a hc))
    simp [List.takeWhile_cons, List.dropWhile_cons, ha, h2.1, h2.2]

/-- All characters of a digit expansion are digits. -/
theorem natDigits_all_digit (n : Nat) :
    ∀ c ∈ natDigits n, Char.isDigit c = true := by
  intro c hc
  obtain ⟨m, init, hm, hconcat, hall, hne⟩ := natDigitsAux_spec (n + 1) n (by omega)
  obtain ⟨k, hk, hck⟩ := hall c hc
  subst hck
  exact (hexDigit_lt10_facts k hk).1

/-- Parsing the digit expansion of `n` recovers `n`. -/
theorem pNat_natDigits (n : Nat) (rest : List Char)
    (hrest : digitHead rest = false) :
    pNat (natDigits n ++ rest) = Option.some (n, rest) := by
  have hrest' : ∀ c r, rest = c :: r → Char.isDigit c = false := by
    intro c r hr
    subst hr
    simpa [digitHead] using hrest
  obtain ⟨ht, hd⟩ :=
    takeWhile_dropWhile_append (natDigits n) rest (natDigits_all_digit n) hrest'
  have hne : natDigits n ≠ [] :=
    (natDigitsAux_spec (n + 1) n (by omega)).choose_spec.choose_spec.2.2.2
  unfold pNat
  rw [ht, hd, if_neg (by simpa [List.isEmpty_iff] using hne),
    digitsToNat_natDigits]

/-- Every serialization starts with a non-whitespace character whose
lower-casing is not a backtick. -/
theorem serJ_head (v : JVal) :
    ∃ c rest, serJ v = c :: rest ∧ isJsWs c = false ∧ c.toLower ≠ '`' ∧
      c ≠ ']' := by
  cases v with
  | null => exact ⟨'n', ['u', 'l', 'l'], rfl, by decide, by decide, by decide⟩
  | bool b =>
    cases b
    · exact ⟨'f', ['a', 'l', 's', 'e'], rfl, by decide, by decide, by decide⟩
    · exact ⟨'t', ['r', 'u', 'e'], rfl, by decide, by decide, by decide⟩
  | num n =>
    by_cases hneg : n < 0
    · exact ⟨'-', natDigits n.natAbs, by simp [serJ, intDigits, hneg], by decide,
        by decide, by decide⟩
    · obtain ⟨m, init, hm, hconcat, hall, hne⟩ :=
        natDigitsAux_spec (n.natAbs + 1) n.natAbs (by omega)
      obtain ⟨c, r, hcr⟩ := List.exists_cons_of_ne_nil hne
      obtain ⟨k, hk, hck⟩ := hall c (by rw [hcr]; exact List.mem_cons_self c r)
      subst hck
      refine ⟨hexDigit k, r, ?_, (hexDigit_lt10_facts k hk).2.1,
        (hexDigit_lt10_facts k hk).2.2.1, (hexDigit_lt10_facts k hk).2.2.2⟩
      show intDigits n = _
      rw [intDigits, if_neg hneg]
      exact hcr
  | str s => exact ⟨'"', _, rfl, by decide, by decide, by decide⟩
  | arr l => exact ⟨'[', _, rfl, by decide, by decide, by decide⟩
  | obj l => exact ⟨'{', _, rfl, by decide, by decide, by decide⟩

/-- Every serialization ends with a non-whitespace character. -/
theorem serJ_last (v : JVal) :
    ∃ init c, serJ v = init ++ [c] ∧ isJsWs c = false := by
  cases v with
  | null => exact ⟨['n', 'u', 'l'], 'l', by decide, by decide⟩
  | bool b =>
    cases b
    · exact ⟨['f', 'a', 'l', 's'], 'e', by decide, by decide⟩
    · exact ⟨['t', 'r', 'u'], 'e', by decide, by decide⟩
  | num n =>
    obtain ⟨m, init, hm, hconcat, hall, hne⟩ :=
      natDigitsAux_spec (n.natAbs + 1) n.natAbs (by omega)
    by_cases hneg : n < 0
    · refine ⟨'-' :: init, hexDigit m, ?_, (hexDigit_lt10_facts m hm).2.1⟩
      show intDigits n = _
      rw [intDigits, if_pos hneg]
      show '-' :: natDigitsAux (n.natAbs + 1) n.natAbs = _
      rw [hconcat]
      simp
    · refine ⟨init, hexDigit m, ?_, (hexDigit_lt10_facts m hm).2.1⟩
      show intDigits n = _
      rw [intDigits, if_neg hneg]
      exact hconcat
  | str s =>
    exact ⟨'"' :: s.data.flatMap escapeChar, '"', by simp [serJ, serStr], by decide⟩
  | arr l => exact ⟨'[' :: serArr l, ']', by simp [serJ], by decide⟩
  | obj l => exact ⟨'{' :: serObj l, '}', by simp [serJ], by decide⟩

/-- Parsing the escaped body of a string recovers the original characters
and stops at the closing quote. -/
theorem pStrBody_escape (s : List Char) :
    ∀ rest, pStrBody (s.flatMap escapeChar ++ '"' :: rest) =
      Option.some (s, rest) := by
  induction s with
  | nil => intro rest; rfl
  | cons c cs ih =>
    intro rest
    rw [List.flatMap_cons, List.append_assoc]
    by_cases h1 : c = '"'
    · subst h1
      show pStrBody ('\\' :: '"' :: (cs.flatMap escapeChar ++ '"' :: rest)) = _
      rw [pStrBody.eq_def]
      simp [ih]
    · by_cases h2 : c = '\\'
      · subst h2
        show pStrBody ('\\' :: '\\' :: (cs.flatMap escapeChar ++ '"' :: rest)) = _
        rw [pStrBody.eq_def]
        simp [ih]
      · by_cases h3 : c = '\x08'
        · subst h3
          show pStrBody ('\\' :: 'b' :: (cs.flatMap escapeChar ++ '"' :: rest)) = _
          rw [pStrBody.eq_def]
          simp [ih]
        · by_cases h4 : c = '\t'
          · subst h4
            show pStrBody ('\\' :: 't' :: (cs.flatMap escapeChar ++ '"' :: rest)) = _
            rw [pStrBody.eq_def]
            simp [ih]
          · by_cases h5 : c = '\n'
            · subst h5
              show pStrBody ('\\' :: 'n' :: (cs.flatMap escapeChar ++ '"' :: rest)) = _
              rw [pStrBody.eq_def]
              simp [ih]
            · by_cases h6 : c = '\x0c'
              · subst h6
                show pStrBody ('\\' :: 'f' :: (cs.flatMap escapeChar ++ '"' :: rest)) = _
                rw [pStrBody.eq_def]
                simp [ih]
              · by_cases h7 : c = '\r'
                · subst h7
                  show pStrBody ('\\' :: 'r' :: (cs.flatMap escapeChar ++ '"' :: rest)) = _
                  rw [pStrBody.eq_def]
                  simp [ih]
                · by_cases h8 : c.toNat < 32
                  · have hesc : escapeChar c =
                        ['\\', 'u', '0', '0', hexDigit (c.toNat / 16),
                         hexDigit (c.toNat % 16)] := by
                      unfold escapeChar
                      rw [if_neg h1, if_neg h2, if_neg h3, if_neg h4, if_neg h5,
                        if_neg h6, if_neg h7, if_pos h8]
                    rw [hesc]
                    show pStrBody ('\\' :: 'u' :: '0' :: '0' ::
                      hexDigit (c.toNat / 16) :: hexDigit (c.toNat % 16) ::
                      (cs.flatMap escapeChar ++ '"' :: rest)) = _
                    have hdiv : fromHexDigit (hexDigit (c.toNat / 16)) =
                        Option.some (c.toNat / 16) :=
                      fromHexDigit_hexDigit _ (by omega)
                    have hmod : fromHexDigit (hexDigit (c.toNat % 16)) =
                        Option.some (c.toNat % 16) :=
                      fromHexDigit_hexDigit _ (by omega)
                    have hcode : ((0 * 16 + 0) * 16 + c.toNat / 16) * 16 +
                        c.toNat % 16 = c.toNat := by omega
                    rw [pStrBody.eq_def]
                    simp [hdiv, hmod, ih, hcode, Char.ofNat_toNat]
                    rw [show fromHexDigit '0' = Option.some 0 from rfl]
                    simp only [Option.some.injEq, Prod.mk.injEq, List.cons.injEq,
                      and_true, true_and]
                    rw [hcode, Char.ofNat_toNat]
                  · have hesc : escapeChar c = [c] := by
                      unfold escapeChar
                      rw [if_neg h1, if_neg h2, if_neg h3, if_neg h4, if_neg h5,
                        if_neg h6, if_neg h7, if_neg h8]
                    rw [hesc]
                    show pStrBody (c :: (cs.flatMap escapeChar ++ '"' :: rest)) = _
                    simp [pStrBody, h1, h2, ih]

/-- C4 amended, witness: a well-formed two-file diff with a preamble
reconstructs exactly. -/
theorem chunkDiffByFile_reconstructs_witness :
    (∀ l ∈ diffLines "junk\ndiff --git a/x b/x\nA\ndiff --git a/y b/y\nB",
      isHeaderLine l = true → (findDiffGitKey l).isSome) ∧
    (headerKeys (diffLines "junk\ndiff --git a/x b/x\nA\ndiff --git a/y b/y\nB")).Nodup ∧
    joinNl ((chunkDiffByFile
        "junk\ndiff --git a/x b/x\nA\ndiff --git a/y b/y\nB").map Prod.snd) =
      dropPreamble "junk\ndiff --git a/x b/x\nA\ndiff --git a/y b/y\nB" :=
  ⟨by decide, by decide,
   chunkDiffByFile_reconstructs "junk\ndiff --git a/x b/x\nA\ndiff --git a/y b/y\nB"
     (by decide) (by decide)⟩

/-- Reduction of `pVal` at an opening bracket. -/
theorem pVal_bracket (f : Nat) (X : List Char) :
    pVal (f + 1) ('[' :: X) =
      (match X.dropWhile isJsonWs with
       | ']' :: r2 => Option.some (JVal.arr [], r2)
       | r2 =>
         match pElems f r2 with
         | Option.some (l, rest) => Option.some (JVal.arr l, rest)
         | Option.none => Option.none) := by
  rw [pVal.eq_def]
  simp [List.dropWhile_cons, isJsonWs]

/-- Reduction of `pVal` at an opening brace. -/
theorem pVal_brace (f : Nat) (X : List Char) :
    pVal (f + 1) ('{' :: X) =
      (match X.dropWhile isJsonWs with
       | '}' :: r2 => Option.some (JVal.obj [], r2)
       | r2 =>
         match pFields f r2 with
         | Option.some (l, rest) => Option.some (JVal.obj l, rest)
         | Option.none => Option.none) := by
  rw [pVal.eq_def]
  simp [List.dropWhile_cons, isJsonWs]

/-- `pVal` on a digit-headed input parses a number via `pNat`. -/
theorem pVal_digit (f : Nat) (c : Char) (r : List Char)
    (hc : ∃ k, k < 10 ∧ c = hexDigit k) :
    pVal (f + 1) (c :: r) =
      (match pNat (c :: r) with
       | Option.some (n, rest) => Option.some (.num (n : Int), rest)
       | Option.none => Option.none) := by
  obtain ⟨k, hk, rfl⟩ := hc
  interval_cases k <;>
    first
    | (rw [show hexDigit 0 = '0' from rfl, pVal.eq_def]; simp [List.dropWhile_cons, isJsonWs])
    | (rw [show hexDigit 1 = '1' from rfl, pVal.eq_def]; simp [List.dropWhile_cons, isJsonWs])
    | (rw [show hexDigit 2 = '2' from rfl, pVal.eq_def]; simp [List.dropWhile_cons, isJsonWs])
    | (rw [show hexDigit 3 = '3' from rfl, pVal.eq_def]; simp [List.dropWhile_cons, isJsonWs])
    | (rw [show hexDigit 4 = '4' from rfl, pVal.eq_def]; simp [List.dropWhile_cons, isJsonWs])
    | (rw [show hexDigit 5 = '5' from rfl, pVal.eq_def]; simp [List.dropWhile_cons, isJsonWs])
    | (rw [show hexDigit 6 = '6' from rfl, pVal.eq_def]; simp [List.dropWhile_cons, isJsonWs])
    | (rw [show hexDigit 7 = '7' from rfl, pVal.eq_def]; simp [List.dropWhile_cons, isJsonWs])
    | (rw [show hexDigit 8 = '8' from rfl, pVal.eq_def]; simp [List.dropWhile_cons, isJsonWs])
    | (rw [show hexDigit 9 = '9' from rfl, pVal.eq_def]; simp [List.dropWhile_cons, isJsonWs])

mutual

/-- Parsing the serialization of a value (with enough fuel and a
non-digit continuation) recovers the value. -/
theorem pVal_serJ (v : JVal) : ∀ (rest : List Char) (fuel : Nat),
    jfuel v ≤ fuel → digitHead rest = false →
    pVal fuel (serJ v ++ rest) = Option.some (v, rest) := by
  cases v with
  | null =>
    intro rest fuel hfuel _
    cases fuel with
    | zero => simp [jfuel] at hfuel
    | succ f =>
      show pVal (f + 1) (['n', 'u', 'l', 'l'] ++ rest) = _
      rw [pVal.eq_def]
      simp [List.dropWhile_cons, isJsonWs, List.isPrefixOf]
  | bool b =>
    intro rest fuel hfuel _
    cases fuel with
    | zero => simp [jfuel] at hfuel
    | succ f =>
      cases b
      · show pVal (f + 1) (['f', 'a', 'l', 's', 'e'] ++ rest) = _
        rw [pVal.eq_def]
        simp [List.dropWhile_cons, isJsonWs, List.isPrefixOf]
      · show pVal (f + 1) (['t', 'r', 'u', 'e'] ++ rest) = _
        rw [pVal.eq_def]
        simp [List.dropWhile_cons, isJsonWs, List.isPrefixOf]
  | num n =>
    intro rest fuel hfuel hrest
    cases fuel with
    | zero => simp [jfuel] at hfuel
    | succ f =>
      by_cases hneg : n < 0
      · have hser : serJ (JVal.num n) = '-' :: natDigits n.natAbs := by
          simp [serJ, intDigits, hneg]
        rw [hser]
        rw [pVal.eq_def]
        simp only [List.cons_append]
        have hdrop : (('-' :: (natDigits n.natAbs ++ rest)).dropWhile isJsonWs) =
            '-' :: (natDigits n.natAbs ++ rest) := by
          simp [List.dropWhile_cons, isJsonWs]
        rw [hdrop]
        simp only [pNat_natDigits n.natAbs rest hrest]
        simp [abs_of_nonpos (le_of_lt hneg)]
      · obtain ⟨m, init, hm, hconcat, hall, hne⟩ :=
          natDigitsAux_spec (n.natAbs + 1) n.natAbs (by omega)
        obtain ⟨c, r, hcr⟩ := List.exists_cons_of_ne_nil hne
        obtain ⟨k, hk, hck⟩ := hall c (by rw [hcr]; exact List.mem_cons_self c r)
        subst hck
        have hser : serJ (JVal.num n) = natDigits n.natAbs := by
          simp [serJ, intDigits, hneg]
        have hcr' : natDigits n.natAbs = hexDigit k :: r := hcr
        rw [hser, hcr', List.cons_append, pVal_digit f _ _ ⟨k, hk, rfl⟩,
          ← List.cons_append, ← hcr', pNat_natDigits n.natAbs rest hrest]
        simp [abs_of_nonneg (by omega : (0 : Int) ≤ n)]
  | str s =>
    intro rest fuel hfuel _
    cases fuel with
    | zero => simp [jfuel] at hfuel
    | succ f =>
      show pVal (f + 1) (('"' :: (s.data.flatMap escapeChar ++ ['"'])) ++ rest) = _
      simp only [List.cons_append, List.append_assoc, List.singleton_append]
      rw [pVal.eq_def]
      simp [List.dropWhile_cons, isJsonWs, pStrBody_escape]
  | arr l =>
    intro rest fuel hfuel hrest
    cases fuel with
    | zero => simp [jfuel] at hfuel
    | succ f =>
      show pVal (f + 1) (('[' :: (serArr l ++ [']'])) ++ rest) = _
      simp only [List.cons_append, List.append_assoc, List.singleton_append]
      rw [pVal_bracket f _]
      cases l with
      | nil => simp [serArr, List.dropWhile_cons, isJsonWs]
      | cons v t =>
        obtain ⟨c, cr, hcr, hws, _, hbr⟩ := serJ_head v
        have hY : ∃ Y, serArr (v :: t) = c :: Y := by
          cases t with
          | nil => exact ⟨cr, hcr⟩
          | cons w t2 =>
            exact ⟨cr ++ ',' :: serArr (w :: t2), by
              show serJ v ++ ',' :: serArr (w :: t2) = _
              rw [hcr]
              simp⟩
        obtain ⟨Y, hY⟩ := hY
        rw [hY]
        have hfl : jfuelElems (v :: t) ≤ f := by
          simp [jfuel] at hfuel
          omega
        have hdrop : ((c :: Y ++ ']' :: rest).dropWhile isJsonWs) =
            c :: (Y ++ ']' :: rest) := by
          simp [List.dropWhile_cons, isJsonWs_eq_false hws]
        simp only [List.cons_append, List.nil_append] at hdrop ⊢
        rw [hdrop]
        have hres : pElems f (c :: (Y ++ ']' :: rest)) =
            Option.some (v :: t, rest) := by
          have heq2 : c :: (Y ++ ']' :: rest) = serArr (v :: t) ++ ']' :: rest := by
            rw [hY]
            simp
          rw [heq2]
          exact pElems_serArr (v :: t) rest f (by simp) hfl
        split
        · rename_i r2 heq
          injection heq with h1 h2
          exact absurd h1 hbr
        · rw [hres]
  | obj l =>
    intro rest fuel hfuel hrest
    cases fuel with
    | zero => simp [jfuel] at hfuel
    | succ f =>
      show pVal (f + 1) (('{' :: (serObj l ++ ['}'])) ++ rest) = _
      simp only [List.cons_append, List.append_assoc, List.singleton_append]
      rw [pVal_brace f _]
      cases l with
      | nil => simp [serObj, List.dropWhile_cons, isJsonWs]
      | cons p t =>
        obtain ⟨k, v⟩ := p
        have hY : ∃ Y, serObj ((k, v) :: t) = '"' :: Y := by
          cases t with
          | nil =>
            exact ⟨k.data.flatMap escapeChar ++ ['"'] ++ ':' :: serJ v, by
              show serStr k ++ ':' :: serJ v = _
              simp [serStr]⟩
          | cons q t2 =>
            exact ⟨k.data.flatMap escapeChar ++ ['"'] ++ ':' :: serJ v ++
              ',' :: serObj (q :: t2), by
              show serStr k ++ ':' :: serJ v ++ ',' :: serObj (q :: t2) = _
              simp [serStr]⟩
        obtain ⟨Y, hY⟩ := hY
        rw [hY]
        have hfl : jfuelFields ((k, v) :: t) ≤ f := by
          simp [jfuel] at hfuel
          omega
        have hdrop : (('"' :: Y ++ '}' :: rest).dropWhile isJsonWs) =
            '"' :: (Y ++ '}' :: rest) := by
          simp [List.dropWhile_cons, isJsonWs]
        simp only [List.cons_append, List.nil_append] at hdrop ⊢
        rw [hdrop]
        have hres : pFields f ('"' :: (Y ++ '}' :: rest)) =
            Option.some ((k, v) :: t, rest) := by
          have heq2 : '"' :: (Y ++ '}' :: rest) =
              serObj ((k, v) :: t) ++ '}' :: rest := by
            rw [hY]
            simp
          rw [heq2]
          exact pFields_serObj ((k, v) :: t) rest f (by simp) hfl
        split
        · rename_i r2 heq
          injection heq with h1 h2
          exact absurd h1 (by decide)
        · rw [hres]
termination_by sizeOf v

/-- Parsing the serialized elements of a nonempty array consumes the
closing bracket and recovers the elements. -/
theorem pElems_serArr (l : List JVal) : ∀ (rest : List Char) (fuel : Nat),
    l ≠ [] → jfuelElems l ≤ fuel →
    pElems fuel (serArr l ++ ']' :: rest) = Option.some (l, rest) := by
  cases l with
  | nil => intro rest fuel hne _; exact absurd rfl hne
  | cons v t =>
    intro rest fuel _ hfl
    cases fuel with
    | zero => simp [jfuelElems] at hfl
    | succ g =>
      have hv : jfuel v ≤ g := by
        simp only [jfuelElems] at hfl
        have := Nat.le_max_left (jfuel v) (jfuelElems t)
        omega
      rw [pElems.eq_def]
      cases t with
      | nil =>
        show (match pVal g (serJ v ++ ']' :: rest) with
          | Option.none => (Option.none : Option (List JVal × List Char))
          | Option.some (v, rest) => _) = _
        rw [pVal_serJ v (']' :: rest) g hv rfl]
        simp [List.dropWhile_cons, isJsonWs]
      | cons w t2 =>
        have ht : jfuelElems (w :: t2) ≤ g := by
          simp only [jfuelElems] at hfl ⊢
          omega
        show (match pVal g ((serJ v ++ ',' :: serArr (w :: t2)) ++ ']' :: rest) with
          | Option.none => (Option.none : Option (List JVal × List Char))
          | Option.some (v, rest) => _) = _
        rw [show (serJ v ++ ',' :: serArr (w :: t2)) ++ ']' :: rest =
          serJ v ++ (',' :: (serArr (w :: t2) ++ ']' :: rest)) from by simp]
        rw [pVal_serJ v (',' :: (serArr (w :: t2) ++ ']' :: rest)) g hv rfl]
        simp only [List.dropWhile_cons, show isJsonWs ',' = false from rfl,
          Bool.false_eq_true, if_false, if_neg]
        rw [pElems_serArr (w :: t2) rest g (by simp) ht]
termination_by sizeOf l

/-- Parsing the serialized fields of a nonempty object consumes the closing
brace and recovers the fields. -/
theorem pFields_serObj (l : List (String × JVal)) : ∀ (rest : List Char) (fuel : Nat),
    l ≠ [] → jfuelFields l ≤ fuel →
    pFields fuel (serObj l ++ '}' :: rest) = Option.some (l, rest) := by
  cases l with
  | nil => intro rest fuel hne _; exact absurd rfl hne
  | cons p t =>
    obtain ⟨k, v⟩ := p
    intro rest fuel _ hfl
    cases fuel with
    | zero => simp [jfuelFields] at hfl
    | succ g =>
      have hv : jfuel v ≤ g := by
        simp only [jfuelFields] at hfl
        have := Nat.le_max_left (jfuel v) (jfuelFields t)
        omega
      rw [pFields.eq_def]
      cases t with
      | nil =>
        show (match (('"' :: (k.data.flatMap escapeChar ++ ['"']) ++
            ':' :: serJ v ++ '}' :: rest)).dropWhile isJsonWs with
          | '"' :: r => _
          | _ => (Option.none : Option (List (String × JVal) × List Char))) = _
        simp only [List.append_eq, List.cons_append, List.append_assoc,
          List.nil_append, List.singleton_append, List.dropWhile_cons,
          show isJsonWs '"' = false from rfl,
          Bool.false_eq_true, if_false, if_neg]
        rw [pStrBody_escape k.data (':' :: (serJ v ++ '}' :: rest))]
        simp only [List.dropWhile_cons, show isJsonWs ':' = false from rfl,
          Bool.false_eq_true, if_false, if_neg]
        rw [pVal_serJ v ('}' :: rest) g hv rfl]
        rfl
      | cons q t2 =>
        have ht : jfuelFields (q :: t2) ≤ g := by
          simp only [jfuelFields] at hfl ⊢
          omega
        show (match (('"' :: (k.data.flatMap escapeChar ++ ['"']) ++
            ':' :: serJ v ++ ',' :: serObj (q :: t2) ++ '}' :: rest)).dropWhile
              isJsonWs with
          | '"' :: r => _
          | _ => (Option.none : Option (List (String × JVal) × List Char))) = _
        simp only [List.append_eq, List.cons_append, List.append_assoc,
          List.nil_append, List.singleton_append, List.dropWhile_cons,
          show isJsonWs '"' = false from rfl,
          Bool.false_eq_true, if_false, if_neg]
        rw [show serJ v ++ ',' :: (serObj (q :: t2) ++ '}' :: rest) =
          serJ v ++ (',' :: (serObj (q :: t2) ++ '}' :: rest)) from rfl]
        rw [pStrBody_escape k.data
          (':' :: (serJ v ++ (',' :: (serObj (q :: t2) ++ '}' :: rest))))]
        simp only [List.dropWhile_cons, show isJsonWs ':' = false from rfl,
          Bool.false_eq_true, if_false, if_neg]
        rw [pVal_serJ v (',' :: (serObj (q :: t2) ++ '}' :: rest)) g hv rfl]
        simp only [List.dropWhile_cons, show isJsonWs ',' = false from rfl,
          Bool.false_eq_true, if_false, if_neg]
        rw [pFields_serObj (q :: t2) rest g (by simp) ht]
termination_by sizeOf l

end



mutual

/-- The parsing fuel needed for a value is at most its serialized length. -/
theorem jfuel_le (v : JVal) : jfuel v ≤ (serJ v).length := by
  cases v with
  | null => decide
  | bool b => cases b <;> decide
  | num n =>
    obtain ⟨c, r, hcr, _, _, _⟩ := serJ_head (JVal.num n)
    simp [jfuel, hcr]
  | str s =>
    obtain ⟨c, r, hcr, _, _, _⟩ := serJ_head (JVal.str s)
    simp [jfuel, hcr]
  | arr l =>
    have h := jfuelElems_le l
    show jfuelElems l + 1 ≤ ('[' :: (serArr l ++ [']'])).length
    simp [List.length_append]
    omega
  | obj l =>
    have h := jfuelFields_le l
    show jfuelFields l + 1 ≤ ('{' :: (serObj l ++ ['}'])).length
    simp [List.length_append]
    omega
termination_by sizeOf v

theorem jfuelElems_le (l : List JVal) : jfuelElems l ≤ (serArr l).length + 1 := by
  cases l with
  | nil => simp [jfuelElems, serArr]
  | cons v t =>
    cases t with
    | nil =>
      have hv := jfuel_le v
      show max (jfuel v) (jfuelElems []) + 1 ≤ (serJ v).length + 1
      simp [jfuelElems]
      omega
    | cons w t2 =>
      have hv := jfuel_le v
      have ht := jfuelElems_le (w :: t2)
      have hlen : 1 ≤ (serJ v).length := by
        obtain ⟨c, r, hcr, _, _, _⟩ := serJ_head v
        simp [hcr]
      show max (jfuel v) (jfuelElems (w :: t2)) + 1 ≤
        (serJ v ++ ',' :: serArr (w :: t2)).length + 1
      simp only [List.length_append, List.length_cons]
      omega
termination_by sizeOf l

theorem jfuelFields_le (l : List (String × JVal)) :
    jfuelFields l ≤ (serObj l).length + 1 := by
  cases l with
  | nil => simp [jfuelFields, serObj]
  | cons p t =>
    obtain ⟨k, v⟩ := p
    cases t with
    | nil =>
      have hv := jfuel_le v
      show max (jfuel v) (jfuelFields []) + 1 ≤
        (serStr k ++ ':' :: serJ v).length + 1
      simp only [jfuelFields, List.length_append, List.length_cons, Nat.max_zero]
      omega
    | cons q t2 =>
      have hv := jfuel_le v
      have ht := jfuelFields_le (q :: t2)
      show max (jfuel v) (jfuelFields (q :: t2)) + 1 ≤
        (serStr k ++ ':' :: serJ v ++ ',' :: serObj (q :: t2)).length + 1
      simp only [List.length_append, List.length_cons]
      omega
termination_by sizeOf l

end

/-- Parsing the serialization of any JSON value recovers the value
(`JSON.parse` is a left inverse of `JSON.stringify`). -/
theorem parseJson_serJ (v : JVal) :
    parseJson (String.mk (serJ v)) = Option.some v := by
  have hlen : jfuel v ≤ (serJ v).length + 1 :=
    Nat.le_trans (jfuel_le v) (by omega)
  have h := pVal_serJ v [] ((serJ v).length + 1) hlen rfl
  rw [List.append_nil] at h
  show (match pVal ((serJ v).length + 1) (serJ v) with
    | Option.some (w, rest) =>
      if (rest.dropWhile isJsonWs).isEmpty then Option.some w else Option.none
    | Option.none => Option.none) = Option.some v
  rw [h]
  rfl

/-- The tail after the first two characters of `u ++ "\n```"` always
contains a backtick, so it is never all-whitespace. -/
theorem allWs_drop2_false (u : List Char) :
    ((u ++ '\n' :: '`' :: '`' :: '`' :: []).drop 2).all isJsWs = false := by
  match u with
  | [] => decide
  | [a] =>
    show (('`' :: '`' :: '`' :: [] : List Char)).all isJsWs = false
    decide
  | a :: b :: u2 =>
    show ((u2 ++ '\n' :: '`' :: '`' :: '`' :: []).all isJsWs) = false
    rw [List.all_append]
    simp [isJsWs]

/-- The trailing-fence replacement removes exactly the final fence. -/
theorem stripTrailingFence_wrap (u : List Char) :
    stripTrailingFence (u ++ '\n' :: '`' :: '`' :: '`' :: []) = u ++ ['\n'] := by
  induction u with
  | nil => rfl
  | cons c u2 ih =>
    show stripTrailingFence (c :: (u2 ++ '\n' :: '`' :: '`' :: '`' :: [])) =
      c :: (u2 ++ ['\n'])
    simp only [stripTrailingFence]
    rw [allWs_drop2_false u2, Bool.and_false]
    simp [ih]


/-- `trim` leaves serializer output (plus the leftover newline) intact up to
that newline. -/
theorem jsTrimL_serJ (v : JVal) : jsTrimL (serJ v ++ ['\n']) = serJ v := by
  obtain ⟨c, cr, hcr, hws, _, _⟩ := serJ_head v
  obtain ⟨init, last, hlast, hlastws⟩ := serJ_last v
  unfold jsTrimL
  have h1 : (serJ v ++ ['\n']).dropWhile isJsWs = serJ v ++ ['\n'] := by
    rw [hcr]
    simp [List.dropWhile_cons, hws]
  rw [h1]
  rw [show serJ v ++ ['\n'] = (init ++ [last]) ++ ['\n'] from by rw [hlast]]
  have h2 : ((init ++ [last]) ++ ['\n']).reverse = '\n' :: (last :: init.reverse) := by
    simp
  rw [h2, List.dropWhile_cons, if_pos (by decide), List.dropWhile_cons,
    if_neg (by simp [hlastws])]
  simp [hlast]

/-- The three fence-stripping replacements and the final trim recover the
serialized payload from a fenced message, for a bare fence or a `json` tag
of any letter case. -/
theorem stripCodeFences_fenceWrap (v : JVal) (tag : String)
    (htag : tag = "" ∨ tag.data.map Char.toLower = "json".data) :
    stripCodeFences (fenceWrap tag (String.mk (serJ v))) = String.mk (serJ v) := by
  obtain ⟨c, cr, hcr, hws, hlow, _⟩ := serJ_head v
  have hcb : c ≠ '`' := fun h => hlow (by rw [h]; rfl)
  have hdata : (fenceWrap tag (String.mk (serJ v))).data =
      '`' :: '`' :: '`' ::
        (tag.data ++ '\n' :: (serJ v ++ '\n' :: '`' :: '`' :: '`' :: [])) := by
    cases tag with
    | mk td =>
      show (("```" ++ String.mk td ++ "\n" ++ String.mk (serJ v) ++ "\n```")).data = _
      simp [String.data_append,
        show ("```" : String).data = ['`', '`', '`'] from rfl,
        show ("\n" : String).data = ['\n'] from rfl,
        show ("\n```" : String).data = ['\n', '`', '`', '`'] from rfl]
  have hdw : ('\n' :: (serJ v ++ '\n' :: '`' :: '`' :: '`' :: [])).dropWhile isJsWs =
      serJ v ++ '\n' :: '`' :: '`' :: '`' :: [] := by
    rw [List.dropWhile_cons, if_pos (by decide), hcr]
    simp [List.dropWhile_cons, hws]
  have htail : ∀ X, X = serJ v ++ '\n' :: '`' :: '`' :: '`' :: [] →
      String.mk (jsTrimL (stripTrailingFence X)) = String.mk (serJ v) := by
    intro X hX
    rw [hX, stripTrailingFence_wrap, jsTrimL_serJ]
  unfold stripCodeFences
  rw [hdata]
  rcases htag with htag | htag
  · subst htag
    rw [show ("" : String).data = ([] : List Char) from rfl]
    simp only [List.nil_append]
    have hjson : stripLeadingJsonFence ('`' :: '`' :: '`' :: '\n' ::
        (serJ v ++ '\n' :: '`' :: '`' :: '`' :: [])) =
        '`' :: '`' :: '`' :: '\n' :: (serJ v ++ '\n' :: '`' :: '`' :: '`' :: []) := by
      unfold stripLeadingJsonFence
      rw [if_neg]
      intro heq
      simp [List.take_succ_cons, List.map_cons] at heq
    rw [hjson]
    have hfence : stripLeadingFence ('`' :: '`' :: '`' :: '\n' ::
        (serJ v ++ '\n' :: '`' :: '`' :: '`' :: [])) =
        serJ v ++ '\n' :: '`' :: '`' :: '`' :: [] := by
      unfold stripLeadingFence
      rw [if_pos (by rfl)]
      exact hdw
    rw [hfence]
    exact htail _ rfl
  · have hlen4 : tag.data.length = 4 := by
      have := congrArg List.length htag
      simpa using this
    obtain ⟨t1, t2, t3, t4, hd⟩ :
        ∃ t1 t2 t3 t4, tag.data = [t1, t2, t3, t4] := by
      cases htd : tag.data with
      | nil => rw [htd] at hlen4; simp at hlen4
      | cons a1 r1 =>
        cases r1 with
        | nil => rw [htd] at hlen4; simp at hlen4
        | cons a2 r2 =>
          cases r2 with
          | nil => rw [htd] at hlen4; simp at hlen4
          | cons a3 r3 =>
            cases r3 with
            | nil => rw [htd] at hlen4; simp at hlen4
            | cons a4 r4 =>
              cases r4 with
              | nil => exact ⟨a1, a2, a3, a4, rfl⟩
              | cons a5 r5 => rw [htd] at hlen4; simp at hlen4
    rw [hd] at htag
    simp only [List.map_cons, List.map_nil] at htag
    have ht1 : t1.toLower = 'j' := by
      have := congrArg (fun l => l.getD 0 'x') htag
      simpa using this
    have ht2 : t2.toLower = 's' := by
      have := congrArg (fun l => l.getD 1 'x') htag
      simpa using this
    have ht3 : t3.toLower = 'o' := by
      have := congrArg (fun l => l.getD 2 'x') htag
      simpa using this
    have ht4 : t4.toLower = 'n' := by
      have := congrArg (fun l => l.getD 3 'x') htag
      simpa using this
    rw [hd]
    simp only [List.cons_append, List.nil_append]
    have hjson : stripLeadingJsonFence ('`' :: '`' :: '`' :: t1 :: t2 :: t3 :: t4 ::
        ('\n' :: (serJ v ++ '\n' :: '`' :: '`' :: '`' :: []))) =
        serJ v ++ '\n' :: '`' :: '`' :: '`' :: [] := by
      unfold stripLeadingJsonFence
      rw [if_pos (by
        simp [List.take_succ_cons, List.map_cons, ht1, ht2, ht3, ht4])]
      exact hdw
    rw [hjson]
    have hfence : stripLeadingFence (serJ v ++ '\n' :: '`' :: '`' :: '`' :: []) =
        serJ v ++ '\n' :: '`' :: '`' :: '`' :: [] := by
      unfold stripLeadingFence
      rw [if_neg]
      rw [hcr]
      intro heq
      simp only [List.cons_append, List.take_succ_cons, List.cons.injEq] at heq
      exact hcb heq.1
    rw [hfence]
    exact htail _ rfl


/-- C7 counterexample: with a language tag other than `json` (here `ts`),
the fence stripping leaves the tag and the opening line glued to the
payload — the extractor does not parse the value and the repair request is
issued, contradicting the claim for arbitrary language tags. -/
theorem stripCodeFences_language_tag_counterexample :
    stripCodeFences (fenceWrap "ts" (String.mk (serJ (JVal.obj [])))) = "ts\n{}" ∧
    parseJson "ts\n{}" = Option.none ∧
    (runParsePhase (fenceWrap "ts" (String.mk (serJ (JVal.obj [])))) "").repairPrompts =
      [repairPromptText] := by
  refine ⟨by decide, rfl, by decide⟩

/-- C7 amended: for every JSON value `v`, when the agent's message is `v`
serialized and wrapped in Markdown code fences — a leading triple-backtick
line that is bare or carries the tag `json` in any letter case, and a
trailing triple-backtick line — the extractor strips the wrapping and parses
`v` successfully without issuing the repair request. -/
theorem runParsePhase_fenced_json (v : JVal) (tag : String)
    (repairResponse : String)
    (htag : tag = "" ∨ tag.data.map Char.toLower = "json".data) :
    (runParsePhase (fenceWrap tag (String.mk (serJ v))) repairResponse).result =
      Except.ok v ∧
    (runParsePhase (fenceWrap tag (String.mk (serJ v))) repairResponse).repairPrompts =
      [] := by
  have h := stripCodeFences_fenceWrap v tag htag
  simp [runParsePhase, h, parseJson_serJ]

/-- C7 amended, witness: a concrete object wrapped in a `json` fence parses
without repair. -/
theorem runParsePhase_fenced_json_witness :
    (("json" : String) = "" ∨
      ("json" : String).data.map Char.toLower = "json".data) ∧
    (runParsePhase
        (fenceWrap "json" (String.mk (serJ (JVal.obj [("a", JVal.num 1)])))) "").result =
      Except.ok (JVal.obj [("a", JVal.num 1)]) :=
  ⟨Or.inr (by decide),
   (runParsePhase_fenced_json (JVal.obj [("a", JVal.num 1)]) "json" ""
     (Or.inr (by decide))).1⟩

end CodexReview
